import Mathlib

/-!
# Verification of the Sentry nextjs data-fetcher rewriter

Shallow embedding of `packages/nextjs/src/config/loaders/ast.ts` and
`packages/nextjs/src/config/wrappers/wrapperUtils.ts`.

Syntax trees (`jscodeshift` collections of mutable AST nodes) are embedded as
the inductive type `JNode`.  A node is either an identifier carrying its
textual name, or an inner node carrying its syntactic kind, one boolean
attribute (`shorthand` for properties, `computed` for member expressions,
unused otherwise) and the list of its children.  Child order follows the
field order of the corresponding jscodeshift node types:
`ImportSpecifier = [imported, local]`, `ExportSpecifier = [local, exported]`,
`MemberExpression = [object, property]`, `Property = [key, value]`,
`VariableDeclarator = [id, init...]`.

In-place mutation of a node reached through a `NodePath` is embedded as
functional update at an address (the list of child indices from the root),
which is exactly the information a `NodePath`'s ancestor chain provides.
Comment attachments are not represented (no claim concerns them), so
`removeComments` is the identity on this representation.
-/

/-- Syntactic kinds distinguished by the code's `X.check(node)` tests. -/
inductive JKind where
  | importSpec
  | exportSpec
  | member
  | property
  | objPat
  | objExpr
  | varDecl
  | declarator
  | other (tag : String)
deriving DecidableEq, Repr

/-- A jscodeshift AST node: an identifier, or an inner node with a kind,
one boolean attribute and children. -/
inductive JNode where
  | ident (name : String)
  | node (kind : JKind) (flag : Bool) (children : List JNode)

/-- An address: the chain of child indices leading from the root to a node
(the positional content of a `NodePath`'s ancestor chain). -/
abbrev Addr := List Nat

namespace JNode

/-- Fetch the node at an address, if the address is valid. -/
def getAt (t : JNode) (a : Addr) : Option JNode :=
  match a with
  | [] => some t
  | i :: rest =>
    match t with
    | .ident _ => none
    | .node _ _ cs =>
      match cs[i]? with
      | some c => getAt c rest
      | none => none

/-- Apply a function to the node at an address (functional update; the tree
is returned unchanged when the address is invalid). -/
def modifyAt (t : JNode) (a : Addr) (f : JNode → JNode) : JNode :=
  match a with
  | [] => f t
  | i :: rest =>
    match t with
    | .ident n => .ident n
    | .node k fl cs =>
      match cs[i]? with
      | some c => .node k fl (cs.set i (modifyAt c rest f))
      | none => .node k fl cs

/-- `nodePath.node.name = alias` : rename the identifier at an address. -/
def setName (t : JNode) (a : Addr) (al : String) : JNode :=
  modifyAt t a fun n => match n with
    | .ident _ => .ident al
    | x => x

/-- `parent.shorthand = false` : clear the flag of the property node at an
address. -/
def clearShorthand (t : JNode) (a : Addr) : JNode :=
  modifyAt t a fun n => match n with
    | .node .property _ cs => .node .property false cs
    | x => x

mutual
/-- `findIdentifiers(ast, name)` : the addresses of all identifier nodes
whose textual name equals `name`, in depth-first pre-order (the order in
which `ast.find(Identifier)` yields its paths). -/
def occAddrs : JNode → String → List Addr
  | .ident n, x => if n = x then [[]] else []
  | .node _ _ cs, x => occAddrsL cs x 0

def occAddrsL : List JNode → String → Nat → List Addr
  | [], _, _ => []
  | c :: rest, x, i => (occAddrs c x).map (fun a => i :: a) ++ occAddrsL rest x (i + 1)
end

/-- The textual name carried by the node at an address, when that node is an
identifier. -/
def identNameAt (t : JNode) (a : Addr) : Option String :=
  match getAt t a with
  | some (.ident n) => some n
  | _ => none

/-- The syntactic kind of the node at an address, when that node is an inner
node (`none` for identifiers and invalid addresses). -/
def kindAt (t : JNode) (a : Addr) : Option JKind :=
  match getAt t a with
  | some (.node k _ _) => some k
  | _ => none

/-- The root name of a node when it is an identifier (`node.name` in JS,
which is `undefined` on non-identifier nodes). -/
def identName? : JNode → Option String
  | .ident n => some n
  | _ => none

/-- The filter of `findExports(ast, name)` : an `ExportSpecifier` whose
`exported.name` equals `name`. -/
def isExportNamed (x : String) : JNode → Bool
  | .node .exportSpec _ cs =>
    match (cs[1]? : Option JNode) with
    | some (.ident m) => m == x
    | _ => false
  | _ => false

/-- The filter of `findDeclarations(ast, name)` : a `VariableDeclaration`
with exactly one declarator, whose `id` is an identifier named `name`. -/
def isSingleDeclNamed (x : String) : JNode → Bool
  | .node .varDecl _ [d] =>
    (match d with
     | .node .declarator _ cs =>
       match (cs[0]? : Option JNode) with
       | some (.ident m) => m == x
       | _ => false
     | _ => false)
  | _ => false

/-- A `VariableDeclaration` introducing several bindings in one statement. -/
def isMultiDecl : JNode → Bool
  | .node .varDecl _ ds => decide (2 ≤ ds.length)
  | _ => false

mutual
/-- Does some node of the tree satisfy the predicate? (`ast.find(...)` being
non-empty for a node-local filter.) -/
def anyNode (p : JNode → Bool) : JNode → Bool
  | .ident n => p (.ident n)
  | .node k fl cs => p (.node k fl cs) || anyNodeL p cs

def anyNodeL (p : JNode → Bool) : List JNode → Bool
  | [] => false
  | c :: rest => anyNode p c || anyNodeL p rest
end

mutual
/-- `collection.remove()` for the collection of all nodes satisfying `p`:
each matching node is detached from its parent's child list (matching nodes
nested inside an already removed node disappear with it, as in jscodeshift). -/
def removeMatching (p : JNode → Bool) : JNode → JNode
  | .ident n => .ident n
  | .node k fl cs => .node k fl (removeMatchingL p cs)

def removeMatchingL (p : JNode → Bool) : List JNode → List JNode
  | [] => []
  | c :: rest =>
    if p c then removeMatchingL p rest
    else removeMatching p c :: removeMatchingL p rest
end

mutual
/-- The longest identifier name occurring in the tree (0 when there is
none); used only to justify that the alias-allocation loop of
`findAvailibleAlias` runs to completion. -/
def maxNameLen : JNode → Nat
  | .ident n => n.length
  | .node _ _ cs => maxNameLenL cs

def maxNameLenL : List JNode → Nat
  | [] => 0
  | c :: rest => max (maxNameLen c) (maxNameLenL rest)
end

/-- `k` underscores. -/
def usRep : Nat → String
  | 0 => ""
  | k + 1 => "_" ++ usRep k

/-- The `while (!foundAvailableName)` loop body of `findAvailibleAlias`:
prefix one underscore, search the tree, retry on collision.  The loop of the
source has no built-in bound; the counter `fl` is an upper bound on the
number of retries, and `findAvailibleAlias` below supplies a bound proved
sufficient (`maxNameLen` plus one), so the `fl = 0` fallback is never the
value actually returned after a collision (see the allocator theorems). -/
def findAliasGo : Nat → JNode → String → String
  | 0, _, cur => "_" ++ cur
  | fl + 1, t, cur =>
    let cand := "_" ++ cur
    if occAddrs t cand = [] then cand else findAliasGo fl t cand

/-- `findAvailibleAlias(userAST, origName)`. -/
def findAvailibleAlias (t : JNode) (orig : String) : String :=
  findAliasGo (maxNameLen t + 1) t orig

/-- The `newName || findAvailibleAlias(ast, origName)` expression of
`renameIdentifiers` (`||` tests JS falsiness: `undefined` or `""`). -/
def aliasArg (t : JNode) (orig : String) (newName : Option String) : String :=
  match newName with
  | some a => if a = "" then findAvailibleAlias t orig else a
  | none => findAvailibleAlias t orig

/-- The parent of the node at an address (`identifierPath.parentPath.node`;
`none` at the root). -/
def ancNodeAt (t : JNode) (a : Addr) : Option JNode :=
  if a.isEmpty then none else getAt t a.dropLast

/-- The syntactic kind of that parent. -/
def ancKindAt (t : JNode) (a : Addr) : Option JKind :=
  if a.isEmpty then none else kindAt t a.dropLast

mutual
/-- `renameIdentifiers(ast, origName, newName?)`, fueled.  Collects all
matching identifier paths first, then processes them in order; returns the
alias used, or `none` (`undefined`) when nothing matched.  `none` as overall
result means the fuel ran out (the source has no such bound; every theorem
about a run is conditioned on the run returning a value). -/
def renameF : Nat → JNode → String → Option String → Option (JNode × Option String)
  | 0, _, _, _ => none
  | fuel + 1, t, orig, newName =>
    let matching := occAddrs t orig
    if matching.length > 0 then
      let al := aliasArg t orig newName
      match goF fuel t matching al with
      | some t' => some (t', some al)
      | none => none
    else
      some (t, none)

/-- `matchingNodes.forEach(nodePath => maybeRenameNode(ast, nodePath, alias))`. -/
def goF : Nat → JNode → List Addr → String → Option JNode
  | 0, _, _, _ => none
  | _ + 1, t, [], _ => some t
  | fuel + 1, t, a :: rest, al =>
    match maybeRenameF fuel t a al with
    | some t' => goF fuel t' rest al
    | none => none

/-- `maybeRenameNode(ast, identifierPath, alias)`.  The checks read the
parent and grandparent through the path's ancestor chain; `node === parent.X`
comparisons are the position of the node in its parent (`jscodeshift` node
objects occupy one position each). -/
def maybeRenameF : Nat → JNode → Addr → String → Option JNode
  | 0, _, _, _ => none
  | fuel + 1, t, a, al =>
    let slot := a.getLastD 0
    match ancNodeAt t a with
    | some (.node .importSpec _ _) =>
      -- `if (node === parent.imported) return;` — the local side falls through
      if slot = 0 then some t else some (t.setName a al)
    | some (.node .property _ _) =>
      match ancNodeAt t a.dropLast with
      | some (.node .objPat _ _) =>
        -- `if (node === parent.key) return; parent.shorthand = false;`
        if slot = 0 then some t else some ((t.clearShorthand a.dropLast).setName a al)
      | some (.node .objExpr _ _) =>
        if slot = 0 then some t else some ((t.clearShorthand a.dropLast).setName a al)
      | _ => some (t.setName a al)
    | some (.node .member _ _) =>
      -- `if (node === parent.property) return;` — `computed` is not consulted
      if slot = 1 then some t else some (t.setName a al)
    | some (.node .exportSpec _ cs) =>
      -- `if (parent.exported.name !== parent.local?.name && node === parent.exported)`
      let exName := (cs[1]?).bind identName?
      let locName := (cs[0]?).bind identName?
      if exName ≠ locName ∧ slot = 1 then
        match renameF fuel t (locName.getD "") (some al) with
        | some (t', _) => some (t'.setName a al)
        | none => none
      else some (t.setName a al)
    | _ => some (t.setName a al)
end

/-- The occurrence contexts of §4.3 tagged "do not rename": the imported
side of an import specifier, the key of a property inside an object pattern
or an object literal, and the property side of a member access. -/
def exemptAt (t : JNode) (a : Addr) : Bool :=
  match ancKindAt t a with
  | some .importSpec => a.getLastD 0 == 0
  | some .property =>
    a.getLastD 0 == 0 &&
    (match ancKindAt t a.dropLast with
     | some .objPat => true
     | some .objExpr => true
     | _ => false)
  | some .member => a.getLastD 0 == 1
  | _ => false

mutual
/-- Boolean equality of trees (for decidability of statements about
concrete trees). -/
def beqJ : JNode → JNode → Bool
  | .ident a, .ident b => a == b
  | .node k1 f1 cs1, .node k2 f2 cs2 => k1 == k2 && f1 == f2 && beqJL cs1 cs2
  | .ident _, .node _ _ _ => false
  | .node _ _ _, .ident _ => false

def beqJL : List JNode → List JNode → Bool
  | [], [] => true
  | c :: cr, d :: dr => beqJ c d && beqJL cr dr
  | [], _ :: _ => false
  | _ :: _, [] => false
end

mutual
theorem beqJ_iff : ∀ a b : JNode, beqJ a b = true ↔ a = b
  | .ident a, .ident b => by simp [beqJ]
  | .node k1 f1 cs1, .node k2 f2 cs2 => by
    simp [beqJ, beqJL_iff cs1 cs2, and_assoc]
  | .ident _, .node _ _ _ => by simp [beqJ]
  | .node _ _ _, .ident _ => by simp [beqJ]

theorem beqJL_iff : ∀ a b : List JNode, beqJL a b = true ↔ a = b
  | [], [] => by simp [beqJL]
  | c :: cr, d :: dr => by simp [beqJL, beqJ_iff c d, beqJL_iff cr dr]
  | [], _ :: _ => by simp [beqJL]
  | _ :: _, [] => by simp [beqJL]
end

instance : DecidableEq JNode := fun a b => decidable_of_iff _ (beqJ_iff a b)

end JNode

open JNode

/-! ## The driver: `wrapFunctions` and `wrapDataFetchersLoader`
(`packages/nextjs/src/config/wrappers/wrapperUtils.ts`) -/

/-- The keys of `DATA_FETCHING_FUNCTIONS`, in object-literal insertion
order (the order `Object.keys` / `Object.values` yields). -/
def trackedNames : List String := ["getServerSideProps", "getStaticProps", "getStaticPaths"]

def phGSSP : String := "__ORIG_GSSP__"
def phGSPROPS : String := "__ORIG_GSPROPS__"
def phGSPATHS : String := "__ORIG_GSPATHS__"

/-- The mutable `alias` fields of the module-level `DATA_FETCHING_FUNCTIONS`
object.  The names and placeholders are fixed; the aliases are assigned
as user code is processed and are *not* re-initialized between loader
invocations, so they are threaded explicitly through every invocation. -/
structure Registry where
  gssp : String
  gsprops : String
  gspaths : String
deriving DecidableEq, Repr

/-- The aliases at module load time (`alias: ''`). -/
def Registry.initial : Registry := ⟨"", "", ""⟩

/-- `matchingNodes.forEach(nodePath => (nodePath.node.name = functionAlias))`
— the driver's own renaming loop (it does not call `renameIdentifiers`). -/
def renameAllAddrs (t : JNode) (addrs : List Addr) (al : String) : JNode :=
  addrs.foldl (fun acc a => acc.setName a al) t

/-- One iteration of the `for (const functionName of Object.keys(...))` loop
of `wrapFunctions`, acting on the pair (user tree, template tree); returns
the alias recorded for this name, if any. -/
def nameStep (n : String) (ut : JNode × JNode) : (JNode × JNode) × Option String :=
  let matching := occAddrs ut.1 n
  if matching.length > 0 then
    let functionAlias := findAvailibleAlias ut.1 n
    ((renameAllAddrs ut.1 matching functionAlias, ut.2), some functionAlias)
  else
    ((ut.1, removeMatching (isSingleDeclNamed n) (removeMatching (isExportNamed n) ut.2)),
     none)

/-- The whole per-name loop of `wrapFunctions`, including the updates of the
module-level alias registry. -/
def perNamePass (u tpl : JNode) (r : Registry) : JNode × JNode × Registry :=
  let s1 := nameStep "getServerSideProps" (u, tpl)
  let r1 : Registry := match s1.2 with | some a => { r with gssp := a } | none => r
  let s2 := nameStep "getStaticProps" s1.1
  let r2 : Registry := match s2.2 with | some a => { r1 with gsprops := a } | none => r1
  let s3 := nameStep "getStaticPaths" s2.1
  let r3 : Registry := match s3.2 with | some a => { r2 with gspaths := a } | none => r2
  (s3.1.1, s3.1.2, r3)

/-! ## String primitives used by the loader -/

/-- Does `pat` occur as a contiguous sublist? -/
def isInfixOfL (pat : List Char) : List Char → Bool
  | [] => pat.isPrefixOf ([] : List Char)
  | c :: rest => pat.isPrefixOf (c :: rest) || isInfixOfL pat rest

/-- `userCode.includes(name)`. -/
def hasSubstr (s pat : String) : Bool := isInfixOfL pat.data s.data

/-- `String.prototype.replace` with a string pattern: replace the first
occurrence of `pat`; return the string unchanged when `pat` does not occur. -/
def replFirst (pat rep : List Char) : List Char → List Char
  | [] => if pat.isPrefixOf ([] : List Char) then rep else []
  | c :: rest =>
    if pat.isPrefixOf (c :: rest) then rep ++ (c :: rest).drop pat.length
    else c :: replFirst pat rep rest

/-- `s.replace(pat, rep)` (the replacement strings in play contain no `$`
patterns). -/
def jsReplace (s pat rep : String) : String := ⟨replFirst pat.data rep.data s.data⟩

/-- `new RegExp('\\.tsx?$').test(filepath)`. -/
def isTSpath (p : String) : Bool :=
  ".ts".data.isSuffixOf p.data || ".tsx".data.isSuffixOf p.data

/-! ## The loader -/

/-- Observable effects of one loader invocation: parser invocations and
warning diagnostics (`logger.warn`). -/
inductive LEvent where
  | parsed (code : String) (isTS : Bool)
  | warned
deriving DecidableEq, Repr

/-- The external collaborators (out of core scope, §1/§6): the two
jscodeshift parsers behind `makeAST`, the `toSource()` printer, and the
`isESM` module-form gate. -/
structure JSEnv where
  parse : String → Bool → Option JNode
  render : JNode → String
  isESM : String → Bool

structure WrapOut where
  userOut : String
  tplOut : String
  reg : Registry
  events : List LEvent
deriving DecidableEq, Repr

/-- `wrapFunctions(userCode, templateCode, filepath)` at string level.
On a parse error the template output is the empty string, one warning is
logged, and the user code is passed through.  `removeComments(templateAST)`
is the identity here because comment attachments are not represented. -/
def wrapFunctionsM (env : JSEnv) (r : Registry) (userCode templateCode filepath : String) :
    WrapOut :=
  let isTS := isTSpath filepath
  match env.parse userCode isTS with
  | none => ⟨userCode, "", r, [.parsed userCode isTS, .warned]⟩
  | some userAST =>
    match env.parse templateCode false with
    | none => ⟨userCode, "", r, [.parsed userCode isTS, .parsed templateCode false, .warned]⟩
    | some tplAST =>
      let res := perNamePass userAST tplAST r
      ⟨env.render res.1, env.render res.2.1, res.2.2,
       [.parsed userCode isTS, .parsed templateCode false]⟩

/-- The `// Fill in template placeholders` loop: one `replace` per entry of
`Object.values(DATA_FETCHING_FUNCTIONS)`, in insertion order, reading the
aliases currently stored in the module-level registry. -/
def spliceAll (r : Registry) (s : String) : String :=
  jsReplace (jsReplace (jsReplace s phGSSP r.gssp) phGSPROPS r.gsprops) phGSPATHS r.gspaths

structure LoadOut where
  out : String
  reg : Registry
  events : List LEvent
deriving DecidableEq, Repr

/-- `wrapDataFetchersLoader(userCode)`: the ESM gate, the substring
pre-filter, then `wrapFunctions` followed by placeholder splicing and
concatenation.  The template text (read from disk by the real loader) and
the path handed to `wrapFunctions` are parameters. -/
def wrapDataFetchersLoader (env : JSEnv) (r : Registry)
    (userCode templateCode filepath : String) : LoadOut :=
  if !(env.isESM userCode) then ⟨userCode, r, []⟩
  else if trackedNames.all (fun n => !(hasSubstr userCode n)) then ⟨userCode, r, []⟩
  else
    let w := wrapFunctionsM env r userCode templateCode filepath
    ⟨w.userOut ++ "\n" ++ spliceAll w.reg w.tplOut, w.reg, w.events⟩

/-- Number of warnings in an event list. -/
def countWarn : List LEvent → Nat
  | [] => 0
  | .warned :: rest => countWarn rest + 1
  | .parsed _ _ :: rest => countWarn rest

/-! ## Further structural helpers used by the theorems -/

namespace JNode

/-- Root kind of a node (`none` for identifiers). -/
def kindOf : JNode → Option JKind
  | .ident _ => none
  | .node k _ _ => some k

/-- Children of a node. -/
def childrenOf : JNode → List JNode
  | .ident _ => []
  | .node _ _ cs => cs

mutual
/-- Number of nodes satisfying a predicate. -/
def countNodes (p : JNode → Bool) : JNode → Nat
  | .ident n => if p (.ident n) then 1 else 0
  | .node k fl cs => (if p (.node k fl cs) then 1 else 0) + countNodesL p cs

def countNodesL (p : JNode → Bool) : List JNode → Nat
  | [] => 0
  | c :: rest => countNodes p c + countNodesL p rest
end

mutual
/-- A straightforward printer standing in for `toSource()`: it emits exactly
the identifier names present in the tree, separated by structure markers. -/
def renderJ : JNode → String
  | .ident n => n
  | .node _ _ cs => "(" ++ renderJL cs ++ ")"

def renderJL : List JNode → String
  | [] => ""
  | c :: rest => renderJ c ++ " " ++ renderJL rest
end

/-- An occurrence whose parent is none of the four node kinds inspected by
`maybeRenameNode` (so the occurrence falls through every check straight to
`node.name = alias`). -/
def plainCtx (t : JNode) (a : Addr) : Bool :=
  match ancKindAt t a with
  | some .importSpec => false
  | some .exportSpec => false
  | some .member => false
  | some .property => false
  | _ => true

/-- What one run of the renamer may do to the tree: kinds everywhere are
untouched, every identifier either keeps its name or now carries the alias,
and identifiers in "do not rename" position keep their names. -/
def Approx (al : String) (t t' : JNode) : Prop :=
  (∀ a, kindAt t' a = kindAt t a) ∧
  (∀ a, identNameAt t' a = identNameAt t a ∨
        ((identNameAt t a).isSome ∧ identNameAt t' a = some al)) ∧
  (∀ a, exemptAt t a = true → identNameAt t' a = identNameAt t a)

end JNode

/-- The number of distinct underscore-prefixed variants of `n` occurring as
identifiers in the tree (these are the candidates the allocator's loop can
collide with). -/
def variantCount (t : JNode) (n : String) : Nat :=
  ((Finset.range (maxNameLen t + 2)).filter
    (fun j => 1 ≤ j ∧ occAddrs t (usRep j ++ n) ≠ [])).card

/-- One wrapper block of the template: `const <name> = wrapperCore(<ph>, ...)`. -/
def tplDecl (n ph : String) : JNode :=
  .node .varDecl false [.node .declarator false
    [.ident n, .node (.other "Call") false [.ident "wrapperCore", .ident ph]]]

/-- One export specifier `<name> as <name>` of the template. -/
def tplExport (n : String) : JNode := .node .exportSpec false [.ident n, .ident n]

/-- Modelled from the spec: the fixed wrapper template file
(`dataFetchersLoaderTemplate.js`) is not among the sources under
verification, only its contract is (§6): for each of the three tracked
names, one export specifier, one single-binding declaration, and one
placeholder token embedded in the code referencing that declaration, each
independently deletable.  An auxiliary multi-binding declaration is included
so that the clause about multi-binding declarations is not vacuous. -/
def templateTree : JNode :=
  .node (.other "Program") false [
    tplDecl "getServerSideProps" phGSSP,
    tplDecl "getStaticProps" phGSPROPS,
    tplDecl "getStaticPaths" phGSPATHS,
    .node .varDecl false [
      .node .declarator false [.ident "helperA", .ident "valueA"],
      .node .declarator false [.ident "helperB", .ident "valueB"]],
    .node (.other "ExportNamed") false
      [tplExport "getServerSideProps", tplExport "getStaticProps", tplExport "getStaticPaths"]]

/-! ## Concrete trees and environments used by the per-claim theorems -/

/-- A module body. -/
def progOf (cs : List JNode) : JNode := .node (.other "Program") false cs

/-- User module whose only occurrence of `getServerSideProps` is the
property side of a member access `x.getServerSideProps`. -/
def uC1 : JNode := progOf [.node .member false [.ident "x", .ident "getServerSideProps"]]

/-- User module with a single plain occurrence of `getServerSideProps`. -/
def uC1plain : JNode := progOf [.ident "getServerSideProps"]

/-- An empty template tree (deletions find nothing). -/
def tplTrivial : JNode := progOf []

/-- Parsed form of the earlier module processed in the C2 counterexample. -/
def uPrevTreeC2 : JNode := progOf [.ident "getServerSideProps"]

/-- Parsed form of the later module: the tracked name appears in its raw
text only inside a comment, so the tree holds no tracked identifier. -/
def uMainTreeC2 : JNode := progOf [.ident "somethingElse"]

/-- A template violating the §6 contract: the `__ORIG_GSSP__` placeholder
sits *outside* the single-binding declaration of `getServerSideProps`, so it
survives the deletion of that declaration. -/
def tplBadC2 : JNode := progOf [
  .node .varDecl false [.node .declarator false
    [.ident "getServerSideProps", .ident "origFn"]],
  .node (.other "Stmt") false [.ident "__ORIG_GSSP__"]]

/-- Environment for the C2 counterexample: a table-driven parser for the
three source texts in play, the name-faithful printer, ESM accepted. -/
def envC2 : JSEnv := {
  parse := fun s _ =>
    if s = "getServerSideProps_prev" then some uPrevTreeC2
    else if s = "// getServerSideProps" then some uMainTreeC2
    else if s = "tpl" then some tplBadC2
    else none
  render := renderJ
  isESM := fun _ => true }

/-- A minimal environment whose renderer returns the empty string. -/
def envC2W : JSEnv := {
  parse := fun _ _ => some (progOf [])
  render := fun _ => ""
  isESM := fun _ => true }

/-- An environment whose parser always fails (every input is syntactically
invalid for the selected dialect). -/
def envC3 : JSEnv := {
  parse := fun _ _ => none
  render := fun _ => ""
  isESM := fun _ => true }

/-- Tree with an import specifier `import { getStaticProps }`. -/
def tC4 : JNode :=
  progOf [.node .importSpec false [.ident "getStaticProps", .ident "getStaticProps"]]

/-- Tree with a specifier `export { L as N }` and a member access `x.L`. -/
def tC5 : JNode := progOf [
  .node (.other "ExportNamed") false [.node .exportSpec false [.ident "L", .ident "N"]],
  .node .member false [.ident "x", .ident "L"]]

/-- Tree already containing the first-try alias `_getStaticProps`. -/
def uC6 : JNode := progOf [.ident "getStaticProps", .ident "_getStaticProps"]

/-- Tree already containing the first-try alias `_getStaticPaths`. -/
def uC7 : JNode := progOf [.ident "getStaticPaths", .ident "_getStaticPaths"]

/-- An environment for exercising the pre-filter (parser never consulted on
the bypass path). -/
def envC8 : JSEnv := {
  parse := fun _ _ => some (progOf [])
  render := fun _ => ""
  isESM := fun _ => true }

/-- User tree containing none of the tracked names. -/
def uC9 : JNode := progOf [.ident "foo", .ident "bar"]

/-- Tree with a *computed* member access `obj[getStaticPaths]`. -/
def tC10 : JNode := progOf [.node .member true [.ident "obj", .ident "getStaticPaths"]]

/-- What `renameIdentifiers(tC5, "N", "A")` produces: both sides of the
export specifier renamed, the member-access occurrence of `L` untouched. -/
def tC5res : JNode := progOf [
  .node (.other "ExportNamed") false [.node .exportSpec false [.ident "A", .ident "A"]],
  .node .member false [.ident "x", .ident "L"]]

/-- The placeholder-splicing loop after its first `replace` (the
`__ORIG_GSSP__` step), as run from registry `r`. -/
def splice1 (env : JSEnv) (r : Registry) (u tpl fp : String) : String :=
  jsReplace (wrapFunctionsM env r u tpl fp).tplOut phGSSP
    (wrapFunctionsM env r u tpl fp).reg.gssp

/-- The placeholder-splicing loop after its second `replace` (the
`__ORIG_GSPROPS__` step), as run from registry `r`. -/
def splice2 (env : JSEnv) (r : Registry) (u tpl fp : String) : String :=
  jsReplace (splice1 env r u tpl fp) phGSPROPS
    (wrapFunctionsM env r u tpl fp).reg.gsprops

/-! ## Basic lemmas about addresses and functional update -/

theorem list_get?_set_self {α : Type} {l : List α} {i : Nat} {x y : α}
    (h : l[i]? = some x) : (l.set i y)[i]? = some y := by
  have hlen : i < l.length := by
    by_contra hn
    rw [List.getElem?_eq_none (by omega)] at h
    exact absurd h (by simp)
  rw [List.getElem?_set_self hlen]

theorem list_get?_set_ne {α : Type} {l : List α} {i j : Nat} {y : α}
    (h : j ≠ i) : (l.set i y)[j]? = l[j]? :=
  List.getElem?_set_ne (fun e => h e.symm)

theorem list_set_of_get? {α : Type} : ∀ {l : List α} {i : Nat} {x : α},
    l[i]? = some x → l.set i x = l
  | [], _, _, h => by simp at h
  | a :: l, 0, x, h => by simp at h; simp [h]
  | a :: l, i + 1, x, h => by
    simp only [List.set]
    rw [list_set_of_get? (l := l) (i := i) (by simpa using h)]

namespace JNode

theorem getAt_nil (t : JNode) : getAt t [] = some t := rfl

theorem modifyAt_of_getAt_none {f : JNode → JNode} :
    ∀ (t : JNode) (b : Addr), getAt t b = none → modifyAt t b f = t
  | t, [], h => by simp [getAt] at h
  | .ident _, _ :: _, _ => rfl
  | .node k fl cs, i :: rest, h => by
    cases hc : cs[i]? with
    | none => simp [modifyAt, hc]
    | some c =>
      have hrest : getAt c rest = none := by simpa [getAt, hc] using h
      simp [modifyAt, hc, modifyAt_of_getAt_none c rest hrest, list_set_of_get? hc]

theorem getAt_modifyAt_self {f : JNode → JNode} :
    ∀ (t : JNode) (b : Addr) (x : JNode), getAt t b = some x →
      getAt (modifyAt t b f) b = some (f x)
  | t, [], x, h => by
    simp [getAt] at h
    subst h
    rfl
  | .ident _, _ :: _, _, h => by simp [getAt] at h
  | .node k fl cs, i :: rest, x, h => by
    cases hc : cs[i]? with
    | none => simp [getAt, hc] at h
    | some c =>
      have hrest : getAt c rest = some x := by simpa [getAt, hc] using h
      simp [modifyAt, hc, getAt, list_get?_set_self hc]
      exact getAt_modifyAt_self c rest x hrest

theorem getAt_append : ∀ (t : JNode) (p q : Addr),
    getAt t (p ++ q) = (getAt t p).bind (fun s => getAt s q)
  | t, [], q => rfl
  | .ident _, _ :: _, _ => rfl
  | .node k fl cs, i :: rest, q => by
    cases hc : cs[i]? with
    | none => simp [getAt, hc]
    | some c => simp [getAt, hc, getAt_append c rest q]

theorem getAt_cons_of {cs : List JNode} {j : Nat} {c : JNode} (k : JKind) (fl : Bool)
    (arest : Addr) (h : cs[j]? = some c) :
    getAt (.node k fl cs) (j :: arest) = getAt c arest := by
  simp [getAt, h]

theorem identNameAt_eq_some {t : JNode} {a : Addr} {s : String} :
    identNameAt t a = some s ↔ getAt t a = some (.ident s) := by
  unfold identNameAt
  cases h : getAt t a with
  | none => simp
  | some v => cases v <;> simp

theorem kindAt_eq_some {t : JNode} {a : Addr} {k : JKind} :
    kindAt t a = some k ↔ ∃ fl cs, getAt t a = some (.node k fl cs) := by
  unfold kindAt
  cases h : getAt t a with
  | none => simp
  | some v => cases v <;> simp

/-! ### Characterization of `findIdentifiers` -/

mutual
theorem mem_occAddrs : ∀ (t : JNode) (x : String) (a : Addr),
    a ∈ occAddrs t x ↔ getAt t a = some (.ident x)
  | .ident n, x, a => by
    cases a with
    | nil => by_cases h : n = x <;> simp [occAddrs, getAt, h]
    | cons i rest => by_cases h : n = x <;> simp [occAddrs, getAt, h]
  | .node k fl cs, x, a => by
    have h := mem_occAddrsL cs x 0 a
    rw [show occAddrs (.node k fl cs) x = occAddrsL cs x 0 from rfl, h]
    cases a with
    | nil =>
      constructor
      · rintro ⟨j, b, hab, _⟩; exact absurd hab (by simp)
      · intro hg; exact absurd hg (by simp [getAt])
    | cons i rest =>
      constructor
      · rintro ⟨j, b, hab, c', hcj, hg⟩
        injection hab with h1 h2
        subst h2
        obtain rfl : j = i := by omega
        rw [getAt_cons_of k fl rest hcj]
        exact hg
      · intro hg
        cases hc : cs[i]? with
        | none => rw [show getAt (JNode.node k fl cs) (i :: rest)
                        = match cs[i]? with
                          | some d => getAt d rest | none => none from rfl, hc] at hg
                  exact absurd hg (by simp)
        | some c =>
          rw [getAt_cons_of k fl rest hc] at hg
          exact ⟨i, rest, by simp, c, hc, hg⟩

theorem mem_occAddrsL : ∀ (cs : List JNode) (x : String) (i : Nat) (a : Addr),
    a ∈ occAddrsL cs x i ↔
      ∃ j b, a = (i + j) :: b ∧ ∃ c, cs[j]? = some c ∧ getAt c b = some (.ident x)
  | [], x, i, a => by simp [occAddrsL]
  | c :: rest, x, i, a => by
    rw [show occAddrsL (c :: rest) x i
          = (occAddrs c x).map (fun a => i :: a) ++ occAddrsL rest x (i + 1) from rfl]
    simp only [List.mem_append, List.mem_map]
    rw [mem_occAddrsL rest x (i + 1) a]
    constructor
    · rintro (⟨b, hb, rfl⟩ | ⟨j, b, rfl, c', hcj, hg⟩)
      · exact ⟨0, b, by simp, c, by simp, (mem_occAddrs c x b).1 hb⟩
      · exact ⟨j + 1, b, by rw [show i + (j + 1) = i + 1 + j from by omega], c',
          by simpa using hcj, hg⟩
    · rintro ⟨j, b, rfl, c', hcj, hg⟩
      cases j with
      | zero =>
        left
        simp at hcj
        subst hcj
        exact ⟨b, (mem_occAddrs c x b).2 hg, by simp⟩
      | succ j' =>
        right
        exact ⟨j', b, by rw [show i + (j' + 1) = i + 1 + j' from by omega], c',
          by simpa using hcj, hg⟩
end

theorem occAddrs_nil_iff {t : JNode} {x : String} :
    occAddrs t x = [] ↔ ∀ a, getAt t a ≠ some (.ident x) := by
  rw [List.eq_nil_iff_forall_not_mem]
  exact forall_congr' (fun a => by rw [mem_occAddrs])

/-! ### Identifier lengths bound the allocator's search -/

mutual
theorem occAddrs_len : ∀ (t : JNode) (s : String), occAddrs t s ≠ [] → s.length ≤ maxNameLen t
  | .ident n, s, h => by
    by_cases e : n = s
    · subst e; simp [maxNameLen]
    · simp [occAddrs, e] at h
  | .node k fl cs, s, h => occAddrsL_len cs s 0 h

theorem occAddrsL_len : ∀ (cs : List JNode) (s : String) (i : Nat),
    occAddrsL cs s i ≠ [] → s.length ≤ maxNameLenL cs
  | [], s, i, h => absurd rfl h
  | c :: rest, s, i, h => by
    by_cases hc : occAddrs c s = []
    · have hr : occAddrsL rest s (i + 1) ≠ [] := by
        simpa [occAddrsL, hc] using h
      exact le_trans (occAddrsL_len rest s (i + 1) hr)
        (le_max_right (maxNameLen c) (maxNameLenL rest))
    · exact le_trans (occAddrs_len c s hc)
        (le_max_left (maxNameLen c) (maxNameLenL rest))
end

/-! ### Pointwise effect of the two mutation primitives -/

theorem kindAt_nil (t : JNode) : kindAt t [] = kindOf t := by cases t <;> rfl

theorem getAt_of_preserve {f : JNode → JNode}
    (hk : ∀ x, kindOf (f x) = kindOf x) (hc : ∀ x, childrenOf (f x) = childrenOf x)
    (t : JNode) (i : Nat) (rest : Addr) :
    getAt (f t) (i :: rest) = getAt t (i :: rest) := by
  cases t with
  | ident n =>
    have hkn := hk (.ident n)
    cases hft : f (.ident n) with
    | ident m => simp [getAt]
    | node k2 fl2 cs2 => rw [hft] at hkn; simp [kindOf] at hkn
  | node k fl cs =>
    have hkn := hk (.node k fl cs)
    have hcn := hc (.node k fl cs)
    cases hft : f (.node k fl cs) with
    | ident m => rw [hft] at hkn; simp [kindOf] at hkn
    | node k2 fl2 cs2 =>
      rw [hft] at hkn hcn
      simp [kindOf] at hkn
      simp [childrenOf] at hcn
      subst hkn; subst hcn
      rfl

theorem kindAt_modifyAt {f : JNode → JNode}
    (hk : ∀ x, kindOf (f x) = kindOf x) (hc : ∀ x, childrenOf (f x) = childrenOf x) :
    ∀ (t : JNode) (b a : Addr), kindAt (modifyAt t b f) a = kindAt t a
  | t, [], a => by
    show kindAt (f t) a = kindAt t a
    cases a with
    | nil => rw [kindAt_nil, kindAt_nil, hk]
    | cons i rest => unfold kindAt; rw [getAt_of_preserve hk hc]
  | .ident n, _ :: _, a => rfl
  | .node k fl cs, i :: rest, a => by
    cases hcs : cs[i]? with
    | none => simp [modifyAt, hcs]
    | some c =>
      simp only [modifyAt, hcs]
      cases a with
      | nil => rfl
      | cons j arest =>
        by_cases hij : j = i
        · subst hij
          unfold kindAt
          rw [getAt_cons_of k fl arest (list_get?_set_self hcs),
              getAt_cons_of k fl arest hcs]
          exact kindAt_modifyAt hk hc c rest arest
        · unfold kindAt
          rw [show getAt (JNode.node k fl (cs.set i (modifyAt c rest f))) (j :: arest)
                = match (cs.set i (modifyAt c rest f))[j]? with
                  | some d => getAt d arest | none => none from rfl,
              list_get?_set_ne hij]
          rfl

theorem identNameAt_modifyAt_pres {f : JNode → JNode}
    (hn : ∀ (x : JNode) (a : Addr), identNameAt (f x) a = identNameAt x a) :
    ∀ (t : JNode) (b a : Addr), identNameAt (modifyAt t b f) a = identNameAt t a
  | t, [], a => hn t a
  | .ident n, _ :: _, a => rfl
  | .node k fl cs, i :: rest, a => by
    cases hcs : cs[i]? with
    | none => simp [modifyAt, hcs]
    | some c =>
      simp only [modifyAt, hcs]
      cases a with
      | nil => rfl
      | cons j arest =>
        by_cases hij : j = i
        · subst hij
          unfold identNameAt
          rw [getAt_cons_of k fl arest (list_get?_set_self hcs),
              getAt_cons_of k fl arest hcs]
          exact identNameAt_modifyAt_pres hn c rest arest
        · unfold identNameAt
          rw [show getAt (JNode.node k fl (cs.set i (modifyAt c rest f))) (j :: arest)
                = match (cs.set i (modifyAt c rest f))[j]? with
                  | some d => getAt d arest | none => none from rfl,
              list_get?_set_ne hij]
          rfl

theorem identNameAt_cons_of {cs : List JNode} {j : Nat} {c : JNode} (k : JKind) (fl : Bool)
    (arest : Addr) (h : cs[j]? = some c) :
    identNameAt (.node k fl cs) (j :: arest) = identNameAt c arest := by
  unfold identNameAt
  rw [getAt_cons_of k fl arest h]

theorem kindAt_setName (t : JNode) (b : Addr) (al : String) (a : Addr) :
    kindAt (setName t b al) a = kindAt t a :=
  kindAt_modifyAt (fun x => by cases x <;> rfl) (fun x => by cases x <;> rfl) t b a

theorem kindAt_clearShorthand (t : JNode) (b : Addr) (a : Addr) :
    kindAt (clearShorthand t b) a = kindAt t a :=
  kindAt_modifyAt
    (fun x => by cases x with | ident => rfl | node k fl cs => cases k <;> rfl)
    (fun x => by cases x with | ident => rfl | node k fl cs => cases k <;> rfl) t b a

theorem identNameAt_clearShorthand (t : JNode) (b : Addr) (a : Addr) :
    identNameAt (clearShorthand t b) a = identNameAt t a :=
  identNameAt_modifyAt_pres
    (fun x a => by
      cases x with
      | ident => rfl
      | node k fl cs => cases k <;> cases a <;> rfl) t b a

theorem identNameAt_setName_self {t : JNode} {b : Addr} {s : String} (al : String)
    (h : identNameAt t b = some s) : identNameAt (setName t b al) b = some al := by
  rw [identNameAt_eq_some] at h ⊢
  have := getAt_modifyAt_self
    (f := fun n => match n with | .ident _ => .ident al | x => x) t b _ h
  simpa [setName] using this

theorem identNameAt_setName_none {t : JNode} {b : Addr} (al : String)
    (h : identNameAt t b = none) : identNameAt (setName t b al) b = none := by
  cases hg : getAt t b with
  | none =>
    unfold setName
    rw [modifyAt_of_getAt_none t b hg]
    exact h
  | some v =>
    cases v with
    | ident n => rw [identNameAt_eq_some.2 hg] at h; cases h
    | node k fl cs =>
      have := getAt_modifyAt_self
        (f := fun n => match n with | .ident _ => .ident al | x => x) t b _ hg
      unfold setName
      unfold identNameAt
      rw [this]

theorem identNameAt_setName_ne : ∀ (t : JNode) (b : Addr) (al : String) (a : Addr), a ≠ b →
    identNameAt (setName t b al) a = identNameAt t a
  | t, [], al, [], h => absurd rfl h
  | t, [], al, i :: rest, _ =>
    congrArg (fun o => match o with | some (JNode.ident n) => some n | _ => none)
      (getAt_of_preserve (f := fun x => match x with | .ident _ => JNode.ident al | x => x)
        (fun x => by cases x <;> rfl) (fun x => by cases x <;> rfl) t i rest)
  | .ident n, _ :: _, al, a, h => rfl
  | .node k fl cs, i :: rest, al, a, h => by
    cases hcs : cs[i]? with
    | none => simp [setName, modifyAt, hcs]
    | some c =>
      simp only [setName, modifyAt, hcs]
      cases a with
      | nil => rfl
      | cons j arest =>
        by_cases hij : j = i
        · subst hij
          rw [identNameAt_cons_of k fl arest (list_get?_set_self hcs),
              identNameAt_cons_of k fl arest hcs]
          have hne : arest ≠ rest := fun e => h (by rw [e])
          exact identNameAt_setName_ne c rest al arest hne
        · unfold identNameAt
          rw [show getAt (JNode.node k fl (cs.set i (modifyAt c rest _))) (j :: arest)
                = match (cs.set i (modifyAt c rest _))[j]? with
                  | some d => getAt d arest | none => none from rfl,
              list_get?_set_ne hij]
          rfl

/-! ### The approximation relation and its closure properties -/

theorem ancKindAt_congr {t t' : JNode} (h : ∀ a, kindAt t' a = kindAt t a) (a : Addr) :
    ancKindAt t' a = ancKindAt t a := by
  unfold ancKindAt
  simp only [h]

theorem exemptAt_congr {t t' : JNode} (h : ∀ a, kindAt t' a = kindAt t a) (a : Addr) :
    exemptAt t' a = exemptAt t a := by
  unfold exemptAt
  simp only [ancKindAt_congr h]

theorem plainCtx_congr {t t' : JNode} (h : ∀ a, kindAt t' a = kindAt t a) (a : Addr) :
    plainCtx t' a = plainCtx t a := by
  unfold plainCtx
  simp only [ancKindAt_congr h]

theorem Approx.refl (al : String) (t : JNode) : Approx al t t :=
  ⟨fun _ => rfl, fun _ => Or.inl rfl, fun _ _ => rfl⟩

theorem Approx.trans {al : String} {t1 t2 t3 : JNode}
    (h12 : Approx al t1 t2) (h23 : Approx al t2 t3) : Approx al t1 t3 := by
  obtain ⟨k12, n12, e12⟩ := h12
  obtain ⟨k23, n23, e23⟩ := h23
  refine ⟨fun a => (k23 a).trans (k12 a), fun a => ?_, fun a ha => ?_⟩
  · rcases n23 a with h | ⟨hs, h⟩
    · rw [h]; exact n12 a
    · refine Or.inr ⟨?_, h⟩
      rcases n12 a with h2 | ⟨hs2, h2⟩
      · rwa [← h2]
      · exact hs2
  · have e2 : exemptAt t2 a = true := by rw [exemptAt_congr k12 a]; exact ha
    rw [e23 a e2, e12 a ha]

theorem approx_setName (al : String) (t : JNode) (a : Addr) (hex : exemptAt t a = false) :
    Approx al t (setName t a al) := by
  refine ⟨kindAt_setName t a al, fun b => ?_, fun b hb => ?_⟩
  · by_cases hba : b = a
    · subst hba
      cases hn : identNameAt t b with
      | none => exact Or.inl (identNameAt_setName_none al hn)
      | some s => exact Or.inr ⟨by simp [hn], identNameAt_setName_self al hn⟩
    · exact Or.inl (identNameAt_setName_ne t a al b hba)
  · by_cases hba : b = a
    · subst hba; rw [hb] at hex; cases hex
    · exact identNameAt_setName_ne t a al b hba

theorem approx_clearShorthand (al : String) (t : JNode) (b : Addr) :
    Approx al t (clearShorthand t b) :=
  ⟨fun a => kindAt_clearShorthand t b a,
   fun a => Or.inl (identNameAt_clearShorthand t b a),
   fun a _ => identNameAt_clearShorthand t b a⟩

/-! ### The alias allocator -/

theorem usRep_length : ∀ k, (usRep k).length = k
  | 0 => rfl
  | k + 1 => by
    show ("_" ++ usRep k).length = k + 1
    rw [String.length_append, usRep_length k, show ("_" : String).length = 1 from rfl]
    omega

theorem usRep_append_us : ∀ (k : Nat) (s : String), usRep k ++ ("_" ++ s) = usRep (k + 1) ++ s
  | 0, s => by
    show "" ++ ("_" ++ s) = ("_" ++ usRep 0) ++ s
    rw [String.empty_append, show usRep 0 = "" from rfl, String.append_empty]
  | k + 1, s => by
    show ("_" ++ usRep k) ++ ("_" ++ s) = ("_" ++ usRep (k + 1)) ++ s
    rw [String.append_assoc, usRep_append_us k s, ← String.append_assoc]

theorem usRep_one_append (s : String) : usRep 1 ++ s = "_" ++ s := by
  show ("_" ++ usRep 0) ++ s = "_" ++ s
  rw [show usRep 0 = "" from rfl, String.append_empty]

theorem usRep_append_ne_empty {k : Nat} (hk : 1 ≤ k) (s : String) : usRep k ++ s ≠ "" := by
  intro h
  have hlen := congrArg String.length h
  rw [String.length_append, usRep_length] at hlen
  have h0 : ("" : String).length = 0 := rfl
  omega

/-- The `while` loop of `findAvailibleAlias`: whenever the retry budget plus
the current candidate length passes the longest identifier in the tree, the
loop stops at the first collision-free candidate, which is the original name
prefixed by one or more underscores; all shorter prefixed candidates do
collide. -/
theorem findAliasGo_spec (t : JNode) : ∀ (fl : Nat) (cur : String),
    maxNameLen t + 1 ≤ fl + cur.length →
    ∃ k, 1 ≤ k ∧ findAliasGo fl t cur = usRep k ++ cur ∧
      occAddrs t (findAliasGo fl t cur) = [] ∧
      ∀ j, 1 ≤ j → j < k → occAddrs t (usRep j ++ cur) ≠ []
  | 0, cur, h => by
    refine ⟨1, le_refl 1, (usRep_one_append cur).symm, ?_, fun j h1 h2 => absurd h2 (by omega)⟩
    show occAddrs t ("_" ++ cur) = []
    by_contra hne
    have hlen := occAddrs_len t _ hne
    rw [String.length_append] at hlen
    have h1 : ("_" : String).length = 1 := rfl
    omega
  | fl + 1, cur, h => by
    have hunf : findAliasGo (fl + 1) t cur =
        (if occAddrs t ("_" ++ cur) = [] then "_" ++ cur
         else findAliasGo fl t ("_" ++ cur)) := rfl
    by_cases hc : occAddrs t ("_" ++ cur) = []
    · rw [hunf, if_pos hc]
      exact ⟨1, le_refl 1, (usRep_one_append cur).symm, hc,
        fun j h1 h2 => absurd h2 (by omega)⟩
    · rw [hunf, if_neg hc]
      have hinv : maxNameLen t + 1 ≤ fl + ("_" ++ cur).length := by
        rw [String.length_append]
        have h1 : ("_" : String).length = 1 := rfl
        omega
      obtain ⟨k, hk1, heq, hocc, hint⟩ := findAliasGo_spec t fl ("_" ++ cur) hinv
      refine ⟨k + 1, by omega, ?_, hocc, ?_⟩
      · rw [heq, usRep_append_us]
      · intro j h1 h2
        match j, h1 with
        | 1, _ => rw [usRep_one_append]; exact hc
        | j'' + 2, _ =>
          rw [← usRep_append_us]
          exact hint (j'' + 1) (by omega) (by omega)

theorem findAvailibleAlias_spec (t : JNode) (orig : String) :
    ∃ k, 1 ≤ k ∧ findAvailibleAlias t orig = usRep k ++ orig ∧
      occAddrs t (findAvailibleAlias t orig) = [] ∧
      ∀ j, 1 ≤ j → j < k → occAddrs t (usRep j ++ orig) ≠ [] :=
  findAliasGo_spec t (maxNameLen t + 1) orig (by omega)

theorem findAvailibleAlias_ne_empty (t : JNode) (orig : String) :
    findAvailibleAlias t orig ≠ "" := by
  obtain ⟨k, hk, heq, -, -⟩ := findAvailibleAlias_spec t orig
  rw [heq]
  exact usRep_append_ne_empty hk orig

theorem aliasArg_ne_empty (t : JNode) (orig : String) (nn : Option String) :
    aliasArg t orig nn ≠ "" := by
  cases nn with
  | none => exact findAvailibleAlias_ne_empty t orig
  | some a =>
    show (if a = "" then findAvailibleAlias t orig else a) ≠ ""
    by_cases h : a = ""
    · rw [if_pos h]; exact findAvailibleAlias_ne_empty t orig
    · rw [if_neg h]; exact h

theorem aliasArg_some {al : String} (t : JNode) (orig : String) (h : al ≠ "") :
    aliasArg t orig (some al) = al := by
  show (if al = "" then findAvailibleAlias t orig else al) = al
  rw [if_neg h]

/-! ### Reading the parent's kind -/

theorem ancKindAt_of_node {t : JNode} {a : Addr} {K : JKind} {pfl : Bool} {pcs : List JNode}
    (h : ancNodeAt t a = some (.node K pfl pcs)) : ancKindAt t a = some K := by
  unfold ancNodeAt at h
  unfold ancKindAt
  by_cases he : a.isEmpty
  · rw [if_pos he] at h; cases h
  · rw [if_neg he] at h
    rw [if_neg he]
    unfold kindAt
    rw [h]

theorem ancKindAt_of_none {t : JNode} {a : Addr} (h : ancNodeAt t a = none) :
    ancKindAt t a = none := by
  unfold ancNodeAt at h
  unfold ancKindAt
  by_cases he : a.isEmpty
  · rw [if_pos he]
  · rw [if_neg he] at h
    rw [if_neg he]
    unfold kindAt
    rw [h]

theorem ancKindAt_of_ident {t : JNode} {a : Addr} {nm : String}
    (h : ancNodeAt t a = some (.ident nm)) : ancKindAt t a = none := by
  unfold ancNodeAt at h
  unfold ancKindAt
  by_cases he : a.isEmpty
  · rw [if_pos he]
  · rw [if_neg he] at h
    rw [if_neg he]
    unfold kindAt
    rw [h]

/-! ### Every completed run of the renamer is an approximation -/

/-- Everything a completed run of `renameIdentifiers` / `maybeRenameNode` /
the `forEach` loop can do to the tree is captured by `Approx`: node kinds
never change, identifier names only ever become the alias in use, and
occurrences in "do not rename" position are untouched. -/
theorem approx_all : ∀ fuel : Nat,
    (∀ (t : JNode) (orig : String) (nn : Option String) (t' : JNode) (al : Option String),
      renameF fuel t orig nn = some (t', al) → Approx (aliasArg t orig nn) t t') ∧
    (∀ (t : JNode) (a : Addr) (al : String) (t' : JNode),
      al ≠ "" → maybeRenameF fuel t a al = some t' → Approx al t t') ∧
    (∀ (t : JNode) (addrs : List Addr) (al : String) (t' : JNode),
      al ≠ "" → goF fuel t addrs al = some t' → Approx al t t')
  | 0 => by
    refine ⟨fun t orig nn t' al h => ?_, fun t a al t' _ h => ?_, fun t addrs al t' _ h => ?_⟩
    · simp [renameF] at h
    · simp [maybeRenameF] at h
    · simp [goF] at h
  | fuel + 1 => by
    obtain ⟨IHr, IHm, IHg⟩ := approx_all fuel
    refine ⟨fun t orig nn t' al h => ?_, fun t a al t' hal h => ?_,
            fun t addrs al t' hal h => ?_⟩
    · -- renameIdentifiers
      simp only [renameF] at h
      by_cases hm : (occAddrs t orig).length > 0
      · rw [if_pos hm] at h
        cases hg : goF fuel t (occAddrs t orig) (aliasArg t orig nn) with
        | none => rw [hg] at h; cases h
        | some t2 =>
          rw [hg] at h
          rw [Option.some.injEq, Prod.mk.injEq] at h
          obtain ⟨rfl, -⟩ := h
          exact IHg t _ _ _ (aliasArg_ne_empty t orig nn) hg
      · rw [if_neg hm] at h
        rw [Option.some.injEq, Prod.mk.injEq] at h
        obtain ⟨rfl, -⟩ := h
        exact Approx.refl _ t
    · -- maybeRenameNode
      rcases hpn : ancNodeAt t a with - | pn
      · simp only [maybeRenameF, hpn] at h
        rw [Option.some.injEq] at h
        subst h
        exact approx_setName al t a (by simp [exemptAt, ancKindAt_of_none hpn])
      cases pn with
      | ident nm =>
        simp only [maybeRenameF, hpn] at h
        rw [Option.some.injEq] at h
        subst h
        exact approx_setName al t a (by simp [exemptAt, ancKindAt_of_ident hpn])
      | node K pfl pcs =>
        have hk := ancKindAt_of_node hpn
        cases K with
        | importSpec =>
          simp only [maybeRenameF, hpn] at h
          by_cases hs : a.getLastD 0 = 0
          · rw [if_pos hs] at h
            rw [Option.some.injEq] at h
            subst h
            exact Approx.refl al _
          · rw [if_neg hs] at h
            rw [Option.some.injEq] at h
            subst h
            exact approx_setName al t a (by simp [exemptAt, hk]; simpa using hs)
        | member =>
          simp only [maybeRenameF, hpn] at h
          by_cases hs : a.getLastD 0 = 1
          · rw [if_pos hs] at h
            rw [Option.some.injEq] at h
            subst h
            exact Approx.refl al _
          · rw [if_neg hs] at h
            rw [Option.some.injEq] at h
            subst h
            exact approx_setName al t a (by simp [exemptAt, hk]; simpa using hs)
        | property =>
          simp only [maybeRenameF, hpn] at h
          rcases hgp : ancNodeAt t a.dropLast with - | gp
          · rw [hgp] at h
            simp only at h
            rw [Option.some.injEq] at h
            subst h
            exact approx_setName al t a
              (by simp [exemptAt, hk, ancKindAt_of_none hgp])
          cases gp with
          | ident nm2 =>
            rw [hgp] at h
            simp only at h
            rw [Option.some.injEq] at h
            subst h
            exact approx_setName al t a
              (by simp [exemptAt, hk, ancKindAt_of_ident hgp])
          | node K2 gfl gcs =>
            have hk2 := ancKindAt_of_node hgp
            have hsh : ∀ hK2 : K2 = JKind.objPat ∨ K2 = JKind.objExpr,
                Approx al t t' := by
              intro hK2
              have hred :
                  (if a.getLastD 0 = 0 then some t
                   else some ((t.clearShorthand a.dropLast).setName a al)) = some t' := by
                rcases hK2 with rfl | rfl <;> rw [hgp] at h <;> simpa using h
              by_cases hs : a.getLastD 0 = 0
              · rw [if_pos hs, Option.some.injEq] at hred
                subst hred
                exact Approx.refl al _
              · rw [if_neg hs, Option.some.injEq] at hred
                subst hred
                have hex : exemptAt t a = false := by
                  rcases hK2 with rfl | rfl <;>
                    (simp [exemptAt, hk]; intro hx; exact absurd hx (by simpa using hs))
                have hex2 : exemptAt (t.clearShorthand a.dropLast) a = false := by
                  rw [exemptAt_congr (kindAt_clearShorthand t a.dropLast) a]
                  exact hex
                exact Approx.trans (approx_clearShorthand al t a.dropLast)
                  (approx_setName al _ a hex2)
            cases K2 with
            | objPat => exact hsh (Or.inl rfl)
            | objExpr => exact hsh (Or.inr rfl)
            | importSpec =>
              rw [hgp] at h; simp only at h
              rw [Option.some.injEq] at h; subst h
              exact approx_setName al t a (by simp [exemptAt, hk, hk2])
            | exportSpec =>
              rw [hgp] at h; simp only at h
              rw [Option.some.injEq] at h; subst h
              exact approx_setName al t a (by simp [exemptAt, hk, hk2])
            | member =>
              rw [hgp] at h; simp only at h
              rw [Option.some.injEq] at h; subst h
              exact approx_setName al t a (by simp [exemptAt, hk, hk2])
            | property =>
              rw [hgp] at h; simp only at h
              rw [Option.some.injEq] at h; subst h
              exact approx_setName al t a (by simp [exemptAt, hk, hk2])
            | varDecl =>
              rw [hgp] at h; simp only at h
              rw [Option.some.injEq] at h; subst h
              exact approx_setName al t a (by simp [exemptAt, hk, hk2])
            | declarator =>
              rw [hgp] at h; simp only at h
              rw [Option.some.injEq] at h; subst h
              exact approx_setName al t a (by simp [exemptAt, hk, hk2])
            | other tag =>
              rw [hgp] at h; simp only at h
              rw [Option.some.injEq] at h; subst h
              exact approx_setName al t a (by simp [exemptAt, hk, hk2])
        | exportSpec =>
          simp only [maybeRenameF, hpn] at h
          have hex : exemptAt t a = false := by simp [exemptAt, hk]
          by_cases hcond : ((pcs[1]?).bind identName? ≠ (pcs[0]?).bind identName?
              ∧ a.getLastD 0 = 1)
          · rw [if_pos hcond] at h
            cases hrec : renameF fuel t (((pcs[0]?).bind identName?).getD "") (some al) with
            | none => rw [hrec] at h; cases h
            | some p =>
              obtain ⟨t1, al1⟩ := p
              rw [hrec] at h
              simp only at h
              rw [Option.some.injEq] at h
              subst h
              have h1 : Approx (aliasArg t (((pcs[0]?).bind identName?).getD "") (some al)) t t1 :=
                IHr t _ _ _ _ hrec
              rw [aliasArg_some _ _ hal] at h1
              have hex1 : exemptAt t1 a = false := by
                rw [exemptAt_congr h1.1 a]; exact hex
              exact Approx.trans h1 (approx_setName al t1 a hex1)
          · rw [if_neg hcond] at h
            rw [Option.some.injEq] at h
            subst h
            exact approx_setName al t a hex
        | objPat =>
          simp only [maybeRenameF, hpn] at h
          rw [Option.some.injEq] at h; subst h
          exact approx_setName al t a (by simp [exemptAt, hk])
        | objExpr =>
          simp only [maybeRenameF, hpn] at h
          rw [Option.some.injEq] at h; subst h
          exact approx_setName al t a (by simp [exemptAt, hk])
        | varDecl =>
          simp only [maybeRenameF, hpn] at h
          rw [Option.some.injEq] at h; subst h
          exact approx_setName al t a (by simp [exemptAt, hk])
        | declarator =>
          simp only [maybeRenameF, hpn] at h
          rw [Option.some.injEq] at h; subst h
          exact approx_setName al t a (by simp [exemptAt, hk])
        | other tag =>
          simp only [maybeRenameF, hpn] at h
          rw [Option.some.injEq] at h; subst h
          exact approx_setName al t a (by simp [exemptAt, hk])
    · -- the forEach loop
      cases addrs with
      | nil =>
        simp only [goF] at h
        rw [Option.some.injEq] at h
        subst h
        exact Approx.refl al _
      | cons a rest =>
        simp only [goF] at h
        cases hm : maybeRenameF fuel t a al with
        | none => rw [hm] at h; cases h
        | some t1 =>
          rw [hm] at h
          exact Approx.trans (IHm t a al t1 hal hm) (IHg t1 rest al t' hal h)

/-! ### Completed runs rename every non-exempt occurrence -/

/-- Processing one occurrence in a position not tagged "do not rename"
always ends with `node.name = alias` at that occurrence. -/
theorem maybeRenameF_renames {fuel : Nat} {t : JNode} {a : Addr} {al : String} {t' : JNode}
    (h : maybeRenameF fuel t a al = some t') (hex : exemptAt t a = false)
    {x : String} (hx : getAt t a = some (.ident x)) :
    getAt t' a = some (.ident al) := by
  have hsetn : ∀ (base : JNode) (y : String), getAt base a = some (.ident y) →
      getAt (base.setName a al) a = some (.ident al) := by
    intro base y hb
    have := getAt_modifyAt_self
      (f := fun n => match n with | .ident _ => JNode.ident al | y => y) base a _ hb
    simpa [setName] using this
  cases fuel with
  | zero => simp [maybeRenameF] at h
  | succ fuel =>
    rcases hpn : ancNodeAt t a with - | pn
    · simp only [maybeRenameF, hpn] at h
      rw [Option.some.injEq] at h
      subst h
      exact hsetn t x hx
    cases pn with
    | ident nm =>
      simp only [maybeRenameF, hpn] at h
      rw [Option.some.injEq] at h
      subst h
      exact hsetn t x hx
    | node K pfl pcs =>
      have hk := ancKindAt_of_node hpn
      cases K with
      | importSpec =>
        simp only [maybeRenameF, hpn] at h
        by_cases hs : a.getLastD 0 = 0
        · exact absurd hex (by simp [exemptAt, hk]; simpa using hs)
        · rw [if_neg hs, Option.some.injEq] at h
          subst h
          exact hsetn t x hx
      | member =>
        simp only [maybeRenameF, hpn] at h
        by_cases hs : a.getLastD 0 = 1
        · exact absurd hex (by simp [exemptAt, hk]; simpa using hs)
        · rw [if_neg hs, Option.some.injEq] at h
          subst h
          exact hsetn t x hx
      | property =>
        simp only [maybeRenameF, hpn] at h
        rcases hgp : ancNodeAt t a.dropLast with - | gp
        · rw [hgp] at h
          simp only at h
          rw [Option.some.injEq] at h
          subst h
          exact hsetn t x hx
        cases gp with
        | ident nm2 =>
          rw [hgp] at h
          simp only at h
          rw [Option.some.injEq] at h
          subst h
          exact hsetn t x hx
        | node K2 gfl gcs =>
          have hk2 := ancKindAt_of_node hgp
          have hsh : ∀ hK2 : K2 = JKind.objPat ∨ K2 = JKind.objExpr,
              getAt t' a = some (.ident al) := by
            intro hK2
            have hred :
                (if a.getLastD 0 = 0 then some t
                 else some ((t.clearShorthand a.dropLast).setName a al)) = some t' := by
              rcases hK2 with rfl | rfl <;> rw [hgp] at h <;> simpa using h
            by_cases hs : a.getLastD 0 = 0
            · refine absurd hex ?_
              rcases hK2 with rfl | rfl <;> (simp [exemptAt, hk, hk2]; simpa using hs)
            · rw [if_neg hs, Option.some.injEq] at hred
              subst hred
              refine hsetn _ x ?_
              rw [← identNameAt_eq_some] at hx ⊢
              rw [identNameAt_clearShorthand]
              exact hx
          cases K2 with
          | objPat => exact hsh (Or.inl rfl)
          | objExpr => exact hsh (Or.inr rfl)
          | importSpec =>
            rw [hgp] at h; simp only at h
            rw [Option.some.injEq] at h; subst h
            exact hsetn t x hx
          | exportSpec =>
            rw [hgp] at h; simp only at h
            rw [Option.some.injEq] at h; subst h
            exact hsetn t x hx
          | member =>
            rw [hgp] at h; simp only at h
            rw [Option.some.injEq] at h; subst h
            exact hsetn t x hx
          | property =>
            rw [hgp] at h; simp only at h
            rw [Option.some.injEq] at h; subst h
            exact hsetn t x hx
          | varDecl =>
            rw [hgp] at h; simp only at h
            rw [Option.some.injEq] at h; subst h
            exact hsetn t x hx
          | declarator =>
            rw [hgp] at h; simp only at h
            rw [Option.some.injEq] at h; subst h
            exact hsetn t x hx
          | other tag =>
            rw [hgp] at h; simp only at h
            rw [Option.some.injEq] at h; subst h
            exact hsetn t x hx
      | exportSpec =>
        simp only [maybeRenameF, hpn] at h
        by_cases hcond : ((pcs[1]?).bind identName? ≠ (pcs[0]?).bind identName?
            ∧ a.getLastD 0 = 1)
        · rw [if_pos hcond] at h
          cases hrec : renameF fuel t (((pcs[0]?).bind identName?).getD "") (some al) with
          | none => rw [hrec] at h; cases h
          | some p =>
            obtain ⟨t1, al1⟩ := p
            rw [hrec] at h
            simp only at h
            rw [Option.some.injEq] at h
            subst h
            have h1 := (approx_all fuel).1 t _ _ _ _ hrec
            have hx1 : ∃ y, getAt t1 a = some (.ident y) := by
              rcases h1.2.1 a with heq | ⟨-, heq⟩
              · refine ⟨x, ?_⟩
                rw [← identNameAt_eq_some] at hx ⊢
                rw [heq]
                exact hx
              · exact ⟨_, identNameAt_eq_some.1 heq⟩
            obtain ⟨y, hy⟩ := hx1
            exact hsetn t1 y hy
        · rw [if_neg hcond, Option.some.injEq] at h
          subst h
          exact hsetn t x hx
      | objPat =>
        simp only [maybeRenameF, hpn] at h
        rw [Option.some.injEq] at h; subst h
        exact hsetn t x hx
      | objExpr =>
        simp only [maybeRenameF, hpn] at h
        rw [Option.some.injEq] at h; subst h
        exact hsetn t x hx
      | varDecl =>
        simp only [maybeRenameF, hpn] at h
        rw [Option.some.injEq] at h; subst h
        exact hsetn t x hx
      | declarator =>
        simp only [maybeRenameF, hpn] at h
        rw [Option.some.injEq] at h; subst h
        exact hsetn t x hx
      | other tag =>
        simp only [maybeRenameF, hpn] at h
        rw [Option.some.injEq] at h; subst h
        exact hsetn t x hx

/-- The `forEach` loop renames every listed occurrence that sits in a
rename position. -/
theorem goF_renames : ∀ {addrs : List Addr} {fuel : Nat} {t : JNode} {al : String} {t' : JNode},
    al ≠ "" → goF fuel t addrs al = some t' →
    ∀ a ∈ addrs, exemptAt t a = false → (∃ x, getAt t a = some (.ident x)) →
    getAt t' a = some (.ident al)
  | addrs, 0, t, al, t', _, h => by simp [goF] at h
  | [], fuel + 1, t, al, t', _, h => by simp
  | b :: rest, fuel + 1, t, al, t', hal, h => by
    simp only [goF] at h
    cases hm : maybeRenameF fuel t b al with
    | none => rw [hm] at h; cases h
    | some t1 =>
      rw [hm] at h
      have h2 : goF fuel t1 rest al = some t' := h
      intro a ha hex hx
      obtain ⟨x, hx⟩ := hx
      have happ1 : Approx al t t1 := (approx_all fuel).2.1 t b al t1 hal hm
      rcases List.mem_cons.1 ha with rfl | hmem
      · have h1 : getAt t1 a = some (.ident al) := maybeRenameF_renames hm hex hx
        have happ2 : Approx al t1 t' := (approx_all fuel).2.2 t1 rest al t' hal h2
        rcases happ2.2.1 a with heq | ⟨-, heq⟩
        · rw [← identNameAt_eq_some] at h1 ⊢
          rw [heq]
          exact h1
        · exact identNameAt_eq_some.1 heq
      · have hex1 : exemptAt t1 a = false := by
          rw [exemptAt_congr happ1.1 a]; exact hex
        have hx1 : ∃ y, getAt t1 a = some (.ident y) := by
          rcases happ1.2.1 a with heq | ⟨-, heq⟩
          · refine ⟨x, ?_⟩
            rw [← identNameAt_eq_some] at hx ⊢
            rw [heq]
            exact hx
          · exact ⟨_, identNameAt_eq_some.1 heq⟩
        exact goF_renames hal h2 a hmem hex1 hx1

/-- `renameIdentifiers` renames every matching occurrence not in a
"do not rename" position to the alias it returns. -/
theorem renameF_renames {fuel : Nat} {t : JNode} {orig : String} {nn : Option String}
    {t' : JNode} {al : Option String}
    (h : renameF fuel t orig nn = some (t', al)) (a : Addr)
    (hx : getAt t a = some (.ident orig)) (hex : exemptAt t a = false) :
    getAt t' a = some (.ident (aliasArg t orig nn)) ∧ al = some (aliasArg t orig nn) := by
  cases fuel with
  | zero => simp [renameF] at h
  | succ fuel =>
    simp only [renameF] at h
    have hmem : a ∈ occAddrs t orig := (mem_occAddrs t orig a).2 hx
    have hlen : (occAddrs t orig).length > 0 :=
      List.length_pos.2 (List.ne_nil_of_mem hmem)
    rw [if_pos hlen] at h
    cases hg : goF fuel t (occAddrs t orig) (aliasArg t orig nn) with
    | none => rw [hg] at h; cases h
    | some t2 =>
      rw [hg] at h
      rw [Option.some.injEq, Prod.mk.injEq] at h
      obtain ⟨rfl, rfl⟩ := h
      exact ⟨goF_renames (aliasArg_ne_empty t orig nn) hg a hmem hex ⟨orig, hx⟩, rfl⟩

/-! ### The export-specifier recursion (`export { local as exported }`) -/

theorem concat_isEmpty (p : Addr) (i : Nat) : (p ++ [i]).isEmpty = false := by
  cases p <;> rfl

theorem concat_dropLast (p : Addr) (i : Nat) : (p ++ [i]).dropLast = p := by
  simp

theorem concat_getLastD (p : Addr) (i : Nat) : (p ++ [i]).getLastD 0 = i := by
  simp

theorem concat_ne {p : Addr} {i j : Nat} (h : i ≠ j) : p ++ [i] ≠ p ++ [j] := by
  intro he
  have := List.append_cancel_left he
  simp at this
  exact h this

theorem ancNodeAt_concat (t : JNode) (p : Addr) (i : Nat) :
    ancNodeAt t (p ++ [i]) = getAt t p := by
  unfold ancNodeAt
  rw [concat_isEmpty, concat_dropLast]
  rfl

theorem ancKindAt_concat (t : JNode) (p : Addr) (i : Nat) :
    ancKindAt t (p ++ [i]) = kindAt t p := by
  unfold ancKindAt
  rw [concat_isEmpty, concat_dropLast]
  rfl

theorem getAt_child {t : JNode} {p : Addr} {K : JKind} {fl : Bool} {cs : List JNode}
    (h : getAt t p = some (.node K fl cs)) (i : Nat) :
    getAt t (p ++ [i]) = cs[i]? := by
  rw [getAt_append, h]
  show getAt (JNode.node K fl cs) [i] = cs[i]?
  cases hc : cs[i]? with
  | none => simp [getAt, hc]
  | some c => simp [getAt, hc]

/-- A child of an export specifier is never in "do not rename" position. -/
theorem exemptAt_export_child {t : JNode} {p : Addr} {fl : Bool} {cs : List JNode}
    (h : getAt t p = some (.node .exportSpec fl cs)) (i : Nat) :
    exemptAt t (p ++ [i]) = false := by
  have hk : kindAt t p = some JKind.exportSpec := by
    unfold kindAt; rw [h]
  unfold exemptAt
  rw [ancKindAt_concat, hk]

/-- The shape of an `local as exported` specifier, with both sides
identifiers, survives any approximation step; the two names can only have
turned into the alias. -/
theorem export_shape_transfer {A : String} {t t1 : JNode} (hap : Approx A t t1)
    {p : Addr} {pfl : Bool} {l e : String}
    (hspec : getAt t p = some (.node .exportSpec pfl [.ident l, .ident e])) :
    ∃ pfl' l' e', getAt t1 p = some (.node .exportSpec pfl' [.ident l', .ident e'])
      ∧ (l' = l ∨ l' = A) ∧ (e' = e ∨ e' = A) := by
  obtain ⟨hkind, hname, -⟩ := hap
  have hk1 : kindAt t1 p = some JKind.exportSpec := by
    rw [hkind p]
    unfold kindAt
    rw [hspec]
  obtain ⟨pfl', cs', hcs'⟩ := kindAt_eq_some.1 hk1
  have h0 : getAt t (p ++ [0]) = some (.ident l) := by
    rw [getAt_child hspec 0]; rfl
  have h1 : getAt t (p ++ [1]) = some (.ident e) := by
    rw [getAt_child hspec 1]; rfl
  have h2 : getAt t (p ++ [2]) = none := by
    rw [getAt_child hspec 2]; rfl
  have hn0 : ∃ l', identNameAt t1 (p ++ [0]) = some l' ∧ (l' = l ∨ l' = A) := by
    rcases hname (p ++ [0]) with heq | ⟨-, heq⟩
    · exact ⟨l, by rw [heq]; exact identNameAt_eq_some.2 h0, Or.inl rfl⟩
    · exact ⟨A, heq, Or.inr rfl⟩
  have hn1 : ∃ e', identNameAt t1 (p ++ [1]) = some e' ∧ (e' = e ∨ e' = A) := by
    rcases hname (p ++ [1]) with heq | ⟨-, heq⟩
    · exact ⟨e, by rw [heq]; exact identNameAt_eq_some.2 h1, Or.inl rfl⟩
    · exact ⟨A, heq, Or.inr rfl⟩
  obtain ⟨l', hl', hlv⟩ := hn0
  obtain ⟨e', he', hev⟩ := hn1
  have hg0 : getAt t1 (p ++ [0]) = some (.ident l') := identNameAt_eq_some.1 hl'
  have hg1 : getAt t1 (p ++ [1]) = some (.ident e') := identNameAt_eq_some.1 he'
  have hg2 : getAt t1 (p ++ [2]) = none := by
    cases hv : getAt t1 (p ++ [2]) with
    | none => rfl
    | some v =>
      cases v with
      | ident nm =>
        have : identNameAt t1 (p ++ [2]) = some nm := by
          unfold identNameAt; rw [hv]
        rcases hname (p ++ [2]) with heq | ⟨his, -⟩
        · rw [this] at heq
          rw [show identNameAt t (p ++ [2]) = none by unfold identNameAt; rw [h2]] at heq
          cases heq
        · rw [show identNameAt t (p ++ [2]) = none by unfold identNameAt; rw [h2]] at his
          simp at his
      | node k2 fl2 cs2 =>
        have : kindAt t1 (p ++ [2]) = some k2 := by
          unfold kindAt; rw [hv]
        rw [hkind (p ++ [2]),
            show kindAt t (p ++ [2]) = none by unfold kindAt; rw [h2]] at this
        cases this
  rw [getAt_child hcs' 0] at hg0
  rw [getAt_child hcs' 1] at hg1
  rw [getAt_child hcs' 2] at hg2
  cases cs' with
  | nil => simp at hg0
  | cons x0 rest0 =>
    cases rest0 with
    | nil => simp at hg1
    | cons x1 rest1 =>
      cases rest1 with
      | cons x2 rest2 => simp at hg2
      | nil =>
        simp at hg0 hg1
        subst hg0; subst hg1
        exact ⟨pfl', l', e', hcs', hlv, hev⟩

/-- Processing the *exported* node of a specifier `local as exported` (with
both names already equal to their original value or to the alias) leaves the
*local* node carrying the alias: either the recursion into
`renameIdentifiers` on the local name renames it, or it already carries the
alias. -/
theorem export_step {fuel : Nat} {t : JNode} {p : Addr} {pfl : Bool}
    {l e A L N : String} {t' : JNode}
    (hspec : getAt t p = some (.node .exportSpec pfl [.ident l, .ident e]))
    (hl : l = L ∨ l = A) (he : e = N ∨ e = A)
    (hLN : L ≠ N) (hAN : A ≠ N) (hAL : A ≠ L) (hA : A ≠ "")
    (h : maybeRenameF fuel t (p ++ [1]) A = some t') :
    identNameAt t' (p ++ [0]) = some A := by
  cases fuel with
  | zero => simp [maybeRenameF] at h
  | succ fuel =>
    have hpn : ancNodeAt t (p ++ [1]) = some (.node .exportSpec pfl [.ident l, .ident e]) := by
      rw [ancNodeAt_concat]; exact hspec
    simp only [maybeRenameF, hpn] at h
    rw [concat_getLastD] at h
    have hEx : (([JNode.ident l, JNode.ident e][1]? : Option JNode)).bind identName?
        = some e := rfl
    have hLoc : (([JNode.ident l, JNode.ident e][0]? : Option JNode)).bind identName?
        = some l := rfl
    rw [hEx, hLoc] at h
    have hlocl : getAt t (p ++ [0]) = some (.ident l) := by
      rw [getAt_child hspec 0]; rfl
    by_cases hcond : (some e ≠ some l ∧ (1 : Nat) = 1)
    · rw [if_pos hcond] at h
      cases hrec : renameF fuel t l (some A) with
      | none =>
        rw [show (some l).getD "" = l from rfl, hrec] at h
        cases h
      | some pr =>
        obtain ⟨t1, al1⟩ := pr
        rw [show (some l).getD "" = l from rfl, hrec] at h
        simp only at h
        rw [Option.some.injEq] at h
        subst h
        have hne01 : (p ++ [0] : Addr) ≠ p ++ [1] := concat_ne (by omega)
        rw [identNameAt_setName_ne t1 (p ++ [1]) A (p ++ [0]) hne01]
        rcases hl with rfl | rfl
        · -- the recursion runs on the original local name and renames it
          have := renameF_renames hrec (p ++ [0]) hlocl
            (exemptAt_export_child hspec 0)
          rw [aliasArg_some t l hA] at this
          exact identNameAt_eq_some.2 (this.1)
        · -- the local node already carries the alias; the recursion keeps it
          have h1 := (approx_all fuel).1 t _ _ _ _ hrec
          rcases h1.2.1 (p ++ [0]) with heq | ⟨-, heq⟩
          · rw [heq]
            exact identNameAt_eq_some.2 hlocl
          · rw [aliasArg_some t l hA] at heq
            exact heq
    · -- both sides already equal: only possible when `l = e = A`
      rw [if_neg hcond] at h
      rw [Option.some.injEq] at h
      subst h
      have hle : e = l := by
        by_contra hne
        exact hcond ⟨by simpa using hne, rfl⟩
      have hlA : l = A := by
        rcases hl with rfl | rfl
        · rcases he with he | he
          · exact absurd (hle.symm.trans he) hLN
          · exact absurd (hle.symm.trans he).symm hAL
        · rfl
      rw [identNameAt_setName_ne t (p ++ [1]) A (p ++ [0]) (concat_ne (by omega))]
      rw [hlA] at hlocl
      exact identNameAt_eq_some.2 hlocl

/-- Through the whole `forEach` loop: once the exported node of the
specifier is processed, the local node carries the alias, and it keeps it. -/
theorem export_loop : ∀ {addrs : List Addr} {fuel : Nat} {t : JNode} {p : Addr}
    {A L N : String} {t' : JNode},
    (∃ pfl l e, getAt t p = some (.node .exportSpec pfl [.ident l, .ident e])
       ∧ (l = L ∨ l = A) ∧ (e = N ∨ e = A)) →
    L ≠ N → A ≠ N → A ≠ L → A ≠ "" →
    goF fuel t addrs A = some t' → (p ++ [1]) ∈ addrs →
    identNameAt t' (p ++ [0]) = some A
  | addrs, 0, t, p, A, L, N, t', _, _, _, _, _, h, _ => by simp [goF] at h
  | [], fuel + 1, t, p, A, L, N, t', _, _, _, _, _, _, hmem => by simp at hmem
  | b :: rest, fuel + 1, t, p, A, L, N, t', hsh, hLN, hAN, hAL, hA, h, hmem => by
    obtain ⟨pfl, l, e, hspec, hl, he⟩ := hsh
    simp only [goF] at h
    cases hm : maybeRenameF fuel t b A with
    | none => rw [hm] at h; cases h
    | some t1 =>
      rw [hm] at h
      have h2 : goF fuel t1 rest A = some t' := h
      have happ1 : Approx A t t1 := (approx_all fuel).2.1 t b A t1 hA hm
      rcases List.mem_cons.1 hmem with rfl | hmem'
      · have hstep : identNameAt t1 (p ++ [0]) = some A :=
          export_step hspec hl he hLN hAN hAL hA hm
        have happ2 : Approx A t1 t' := (approx_all fuel).2.2 t1 rest A t' hA h2
        rcases happ2.2.1 (p ++ [0]) with heq | ⟨-, heq⟩
        · rw [heq]; exact hstep
        · exact heq
      · obtain ⟨pfl', l', e', hcs', hlv, hev⟩ := export_shape_transfer happ1 hspec
        have hl' : l' = L ∨ l' = A := by
          rcases hlv with rfl | rfl
          · exact hl
          · exact Or.inr rfl
        have he' : e' = N ∨ e' = A := by
          rcases hev with rfl | rfl
          · exact he
          · exact Or.inr rfl
        exact export_loop ⟨pfl', l', e', hcs', hl', he'⟩ hLN hAN hAL hA h2 hmem'

/-- Full `renameIdentifiers(tree, N, A)` on a tree holding a specifier
`export { L as N }`: both sides of the specifier end up named `A`, and
every occurrence in a "do not rename" position keeps its original name. -/
theorem renameF_export_roundtrip {fuel : Nat} {t : JNode} {p : Addr} {pfl : Bool}
    {L N A : String} {t' : JNode} {al : Option String}
    (hspec : getAt t p = some (.node .exportSpec pfl [.ident L, .ident N]))
    (hAN : A ≠ N) (hAL : A ≠ L) (hA : A ≠ "")
    (hrun : renameF fuel t N (some A) = some (t', al)) :
    identNameAt t' (p ++ [1]) = some A ∧ identNameAt t' (p ++ [0]) = some A ∧
    ∀ a, exemptAt t a = true → identNameAt t' a = identNameAt t a := by
  have hE : getAt t (p ++ [1]) = some (.ident N) := by
    rw [getAt_child hspec 1]; rfl
  have hL0 : getAt t (p ++ [0]) = some (.ident L) := by
    rw [getAt_child hspec 0]; rfl
  have haliasN : aliasArg t N (some A) = A := aliasArg_some t N hA
  have hc1 : identNameAt t' (p ++ [1]) = some A := by
    have := renameF_renames hrun (p ++ [1]) hE (exemptAt_export_child hspec 1)
    rw [haliasN] at this
    exact identNameAt_eq_some.2 this.1
  have hexempt : ∀ a, exemptAt t a = true → identNameAt t' a = identNameAt t a := by
    have hap := (approx_all fuel).1 t _ _ _ _ hrun
    rw [haliasN] at hap
    exact hap.2.2
  refine ⟨hc1, ?_, hexempt⟩
  by_cases hLN : L = N
  · subst hLN
    have := renameF_renames hrun (p ++ [0]) hL0 (exemptAt_export_child hspec 0)
    rw [haliasN] at this
    exact identNameAt_eq_some.2 this.1
  · cases fuel with
    | zero => simp [renameF] at hrun
    | succ fuel =>
      simp only [renameF] at hrun
      have hmem : (p ++ [1]) ∈ occAddrs t N := (mem_occAddrs t N _).2 hE
      have hlen : (occAddrs t N).length > 0 :=
        List.length_pos.2 (List.ne_nil_of_mem hmem)
      rw [if_pos hlen] at hrun
      cases hg : goF fuel t (occAddrs t N) (aliasArg t N (some A)) with
      | none => rw [hg] at hrun; cases hrun
      | some t2 =>
        rw [hg] at hrun
        rw [Option.some.injEq, Prod.mk.injEq] at hrun
        obtain ⟨rfl, -⟩ := hrun
        rw [haliasN] at hg
        exact export_loop ⟨pfl, L, N, hspec, Or.inl rfl, Or.inl rfl⟩ hLN hAN hAL hA hg hmem

end JNode

namespace JNode

/-! ### Exempt and plain behaviour of `maybeRenameNode` -/

theorem ancNodeAt_of_kind {t : JNode} {a : Addr} {K : JKind} (h : ancKindAt t a = some K) :
    ∃ fl cs, ancNodeAt t a = some (.node K fl cs) := by
  unfold ancKindAt at h
  unfold ancNodeAt
  by_cases he : a.isEmpty
  · rw [if_pos he] at h; cases h
  · rw [if_neg he] at h
    rw [if_neg he]
    exact kindAt_eq_some.1 h

/-- An occurrence in "do not rename" position is returned untouched: the
function takes one of its three early `return` paths. -/
theorem maybeRenameF_exempt {fuel : Nat} {t : JNode} {a : Addr} {al : String} {t' : JNode}
    (h : maybeRenameF fuel t a al = some t') (hex : exemptAt t a = true) : t' = t := by
  cases fuel with
  | zero => simp [maybeRenameF] at h
  | succ fuel =>
    unfold exemptAt at hex
    cases hk : ancKindAt t a with
    | none => rw [hk] at hex; cases hex
    | some K =>
      rw [hk] at hex
      obtain ⟨pfl, pcs, hpn⟩ := ancNodeAt_of_kind hk
      cases K with
      | importSpec =>
        rw [beq_iff_eq] at hex
        simp only [maybeRenameF, hpn] at h
        rw [if_pos hex, Option.some.injEq] at h
        exact h.symm
      | member =>
        rw [beq_iff_eq] at hex
        simp only [maybeRenameF, hpn] at h
        rw [if_pos hex, Option.some.injEq] at h
        exact h.symm
      | property =>
        rw [Bool.and_eq_true, beq_iff_eq] at hex
        obtain ⟨h0, hgp⟩ := hex
        simp only [maybeRenameF, hpn] at h
        cases hk2 : ancKindAt t a.dropLast with
        | none => rw [hk2] at hgp; cases hgp
        | some K2 =>
          rw [hk2] at hgp
          obtain ⟨gfl, gcs, hgpn⟩ := ancNodeAt_of_kind hk2
          cases K2 with
          | objPat =>
            rw [hgpn] at h
            simp only at h
            rw [if_pos h0, Option.some.injEq] at h
            exact h.symm
          | objExpr =>
            rw [hgpn] at h
            simp only at h
            rw [if_pos h0, Option.some.injEq] at h
            exact h.symm
          | importSpec => cases hgp
          | exportSpec => cases hgp
          | member => cases hgp
          | property => cases hgp
          | varDecl => cases hgp
          | declarator => cases hgp
          | other tag => cases hgp
      | exportSpec => cases hex
      | objPat => cases hex
      | objExpr => cases hex
      | varDecl => cases hex
      | declarator => cases hex
      | other tag => cases hex

/-- An occurrence whose parent is none of the four inspected node kinds
falls through every check straight to `node.name = alias`. -/
theorem maybeRenameF_plain {fuel : Nat} {t : JNode} {a : Addr} {al : String}
    (hp : plainCtx t a = true) :
    maybeRenameF (fuel + 1) t a al = some (t.setName a al) := by
  rcases hpn : ancNodeAt t a with - | pn
  · simp [maybeRenameF, hpn]
  cases pn with
  | ident nm => simp [maybeRenameF, hpn]
  | node K pfl pcs =>
    have hk := ancKindAt_of_node hpn
    cases K with
    | importSpec => exact absurd hp (by simp [plainCtx, hk])
    | exportSpec => exact absurd hp (by simp [plainCtx, hk])
    | member => exact absurd hp (by simp [plainCtx, hk])
    | property => exact absurd hp (by simp [plainCtx, hk])
    | objPat => simp [maybeRenameF, hpn]
    | objExpr => simp [maybeRenameF, hpn]
    | varDecl => simp [maybeRenameF, hpn]
    | declarator => simp [maybeRenameF, hpn]
    | other tag => simp [maybeRenameF, hpn]

/-- When every processed occurrence is in a plain context, the `forEach`
loop over `maybeRenameNode` computes exactly the driver's own unconditional
renaming loop. -/
theorem goF_plain : ∀ {addrs : List Addr} {fuel : Nat} {t : JNode} {al : String} {t' : JNode},
    (∀ a ∈ addrs, plainCtx t a = true) →
    goF fuel t addrs al = some t' →
    t' = renameAllAddrs t addrs al
  | addrs, 0, t, al, t', _, h => by simp [goF] at h
  | [], fuel + 1, t, al, t', _, h => by
    simp only [goF, Option.some.injEq] at h
    rw [← h]
    rfl
  | b :: rest, fuel + 1, t, al, t', hp, h => by
    simp only [goF] at h
    cases fuel with
    | zero => simp [maybeRenameF] at h
    | succ fuel =>
      rw [maybeRenameF_plain (hp b (by simp))] at h
      simp only at h
      have hrest : ∀ a ∈ rest, plainCtx (t.setName b al) a = true := by
        intro a ha
        rw [plainCtx_congr (kindAt_setName t b al) a]
        exact hp a (by simp [ha])
      have := goF_plain hrest h
      rw [this]
      rfl

end JNode

/-! ### String replacement and loader-level lemmas -/

theorem replFirst_no_occ : ∀ {l pat rep : List Char},
    isInfixOfL pat l = false → replFirst pat rep l = l
  | [], pat, rep, h => by
    unfold isInfixOfL at h
    unfold replFirst
    rw [if_neg (by simp [h])]
  | c :: rest, pat, rep, h => by
    unfold isInfixOfL at h
    rw [Bool.or_eq_false_iff] at h
    obtain ⟨h1, h2⟩ := h
    unfold replFirst
    rw [if_neg (by simp [h1]), replFirst_no_occ h2]

/-- `s.replace(pat, rep)` is the identity when `pat` does not occur in `s`. -/
theorem jsReplace_of_not_substr {s pat rep : String} (h : hasSubstr s pat = false) :
    jsReplace s pat rep = s := by
  unfold hasSubstr at h
  unfold jsReplace
  rw [replFirst_no_occ h]

theorem replFirst_nil {pat rep : List Char} (h : pat ≠ []) : replFirst pat rep [] = [] := by
  cases pat with
  | nil => exact absurd rfl h
  | cons c cs => rfl

/-- Replacing in the empty string (the discarded template of a failed
parse) yields the empty string. -/
theorem jsReplace_empty {pat rep : String} (h : pat.data ≠ []) :
    jsReplace "" pat rep = "" := by
  unfold jsReplace
  rw [show ("" : String).data = [] from rfl, replFirst_nil h]

/-- `wrapFunctions` when the user text fails to parse: pass the user code
through, emit one warning, blank template. -/
theorem wrapFunctionsM_eq_fail {env : JSEnv} {r : Registry} {u tplCode fp : String}
    (hp1 : env.parse u (isTSpath fp) = none) :
    wrapFunctionsM env r u tplCode fp
      = ⟨u, "", r, [.parsed u (isTSpath fp), .warned]⟩ := by
  simp only [wrapFunctionsM, hp1]

/-- `wrapFunctions` when the template text fails to parse. -/
theorem wrapFunctionsM_eq_fail2 {env : JSEnv} {r : Registry} {u tplCode fp : String}
    {uAST : JNode} (hp1 : env.parse u (isTSpath fp) = some uAST)
    (hp2 : env.parse tplCode false = none) :
    wrapFunctionsM env r u tplCode fp
      = ⟨u, "", r, [.parsed u (isTSpath fp), .parsed tplCode false, .warned]⟩ := by
  simp only [wrapFunctionsM, hp1, hp2]

/-- `wrapFunctions` when both parses succeed. -/
theorem wrapFunctionsM_eq_parsed {env : JSEnv} {r : Registry} {u tplCode fp : String}
    {uAST tAST : JNode} (hp1 : env.parse u (isTSpath fp) = some uAST)
    (hp2 : env.parse tplCode false = some tAST) :
    wrapFunctionsM env r u tplCode fp =
      ⟨env.render (perNamePass uAST tAST r).1, env.render (perNamePass uAST tAST r).2.1,
       (perNamePass uAST tAST r).2.2, [.parsed u (isTSpath fp), .parsed tplCode false]⟩ := by
  simp only [wrapFunctionsM, hp1, hp2]

/-- The user text, template text, and diagnostics produced by
`wrapFunctions` do not depend on the aliases currently stored in the
module-level registry (only the resulting registry does). -/
theorem wrapFunctionsM_outs (env : JSEnv) (r r' : Registry) (u tplCode fp : String) :
    (wrapFunctionsM env r u tplCode fp).userOut = (wrapFunctionsM env r' u tplCode fp).userOut ∧
    (wrapFunctionsM env r u tplCode fp).tplOut = (wrapFunctionsM env r' u tplCode fp).tplOut ∧
    (wrapFunctionsM env r u tplCode fp).events = (wrapFunctionsM env r' u tplCode fp).events := by
  cases hp1 : env.parse u (isTSpath fp) with
  | none =>
    rw [wrapFunctionsM_eq_fail hp1, wrapFunctionsM_eq_fail hp1]
    exact ⟨rfl, rfl, rfl⟩
  | some uAST =>
    cases hp2 : env.parse tplCode false with
    | none =>
      rw [wrapFunctionsM_eq_fail2 hp1 hp2, wrapFunctionsM_eq_fail2 hp1 hp2]
      exact ⟨rfl, rfl, rfl⟩
    | some tAST =>
      rw [wrapFunctionsM_eq_parsed hp1 hp2, wrapFunctionsM_eq_parsed hp1 hp2]
      exact ⟨rfl, rfl, rfl⟩

/-- Each alias field of the registry after the per-name loop is either
freshly recorded (the same value whatever the incoming registry held) or
the stale incoming value (when that name's template block was deleted). -/
theorem perNamePass_reg (u tpl : JNode) (r r' : Registry) :
    ((perNamePass u tpl r).2.2.gssp = (perNamePass u tpl r').2.2.gssp ∨
      ((perNamePass u tpl r).2.2.gssp = r.gssp ∧ (perNamePass u tpl r').2.2.gssp = r'.gssp)) ∧
    ((perNamePass u tpl r).2.2.gsprops = (perNamePass u tpl r').2.2.gsprops ∨
      ((perNamePass u tpl r).2.2.gsprops = r.gsprops ∧
        (perNamePass u tpl r').2.2.gsprops = r'.gsprops)) ∧
    ((perNamePass u tpl r).2.2.gspaths = (perNamePass u tpl r').2.2.gspaths ∨
      ((perNamePass u tpl r).2.2.gspaths = r.gspaths ∧
        (perNamePass u tpl r').2.2.gspaths = r'.gspaths)) := by
  simp only [perNamePass]
  generalize (nameStep "getServerSideProps" (u, tpl)).2 = o1
  generalize (nameStep "getStaticProps" (nameStep "getServerSideProps" (u, tpl)).1).2 = o2
  generalize (nameStep "getStaticPaths"
    (nameStep "getStaticProps" (nameStep "getServerSideProps" (u, tpl)).1).1).2 = o3
  rcases o1 with - | a1 <;> rcases o2 with - | a2 <;> rcases o3 with - | a3 <;> simp

/-- The registry delivered to the placeholder-splice loop, field by field:
either freshly recorded in this invocation (and then independent of the
incoming registry) or the stale incoming value. -/
theorem wrapFunctionsM_reg (env : JSEnv) (r r' : Registry) (u tplCode fp : String) :
    ((wrapFunctionsM env r u tplCode fp).reg.gssp = (wrapFunctionsM env r' u tplCode fp).reg.gssp ∨
      ((wrapFunctionsM env r u tplCode fp).reg.gssp = r.gssp ∧
        (wrapFunctionsM env r' u tplCode fp).reg.gssp = r'.gssp)) ∧
    ((wrapFunctionsM env r u tplCode fp).reg.gsprops
        = (wrapFunctionsM env r' u tplCode fp).reg.gsprops ∨
      ((wrapFunctionsM env r u tplCode fp).reg.gsprops = r.gsprops ∧
        (wrapFunctionsM env r' u tplCode fp).reg.gsprops = r'.gsprops)) ∧
    ((wrapFunctionsM env r u tplCode fp).reg.gspaths
        = (wrapFunctionsM env r' u tplCode fp).reg.gspaths ∨
      ((wrapFunctionsM env r u tplCode fp).reg.gspaths = r.gspaths ∧
        (wrapFunctionsM env r' u tplCode fp).reg.gspaths = r'.gspaths)) := by
  cases hp1 : env.parse u (isTSpath fp) with
  | none =>
    rw [wrapFunctionsM_eq_fail hp1, wrapFunctionsM_eq_fail hp1]
    exact ⟨Or.inr ⟨rfl, rfl⟩, Or.inr ⟨rfl, rfl⟩, Or.inr ⟨rfl, rfl⟩⟩
  | some uAST =>
    cases hp2 : env.parse tplCode false with
    | none =>
      rw [wrapFunctionsM_eq_fail2 hp1 hp2, wrapFunctionsM_eq_fail2 hp1 hp2]
      exact ⟨Or.inr ⟨rfl, rfl⟩, Or.inr ⟨rfl, rfl⟩, Or.inr ⟨rfl, rfl⟩⟩
    | some tAST =>
      rw [wrapFunctionsM_eq_parsed hp1 hp2, wrapFunctionsM_eq_parsed hp1 hp2]
      exact perNamePass_reg uAST tAST r r'

/-! ## Shared helpers for the per-claim theorems -/

/-- Appending the empty string is the identity. -/
theorem str_append_empty (s : String) : s ++ "" = s := by
  cases s with
  | mk l =>
    show String.mk (l ++ ([] : List Char)) = String.mk l
    rw [List.append_nil]

/-- One driver loop iteration for a name with no matching identifier:
the user tree is untouched, the template loses that name's export
specifiers and single-binding declarations, no alias is recorded. -/
theorem nameStep_of_no_occ (n : String) (u tpl : JNode) (h : occAddrs u n = []) :
    nameStep n (u, tpl)
      = ((u, removeMatching (isSingleDeclNamed n) (removeMatching (isExportNamed n) tpl)),
         none) := by
  show (if (occAddrs u n).length > 0 then
        ((renameAllAddrs u (occAddrs u n) (findAvailibleAlias u n), tpl),
         some (findAvailibleAlias u n))
      else
        ((u, removeMatching (isSingleDeclNamed n) (removeMatching (isExportNamed n) tpl)),
         none))
      = ((u, removeMatching (isSingleDeclNamed n) (removeMatching (isExportNamed n) tpl)),
         none)
  rw [h]
  rw [if_neg (by simp)]

/-- One driver loop iteration for a name with matching identifiers: all of
them are renamed to the allocator's alias, the template is untouched, the
alias is recorded. -/
theorem nameStep_of_occ (n : String) (u tpl : JNode) (h : (occAddrs u n).length > 0) :
    nameStep n (u, tpl)
      = ((renameAllAddrs u (occAddrs u n) (findAvailibleAlias u n), tpl),
         some (findAvailibleAlias u n)) := by
  show (if (occAddrs u n).length > 0 then
        ((renameAllAddrs u (occAddrs u n) (findAvailibleAlias u n), tpl),
         some (findAvailibleAlias u n))
      else
        ((u, removeMatching (isSingleDeclNamed n) (removeMatching (isExportNamed n) tpl)),
         none))
      = ((renameAllAddrs u (occAddrs u n) (findAvailibleAlias u n), tpl),
         some (findAvailibleAlias u n))
  rw [if_pos h]

/-- The whole per-name pass for a user tree holding none of the tracked
names: the user tree and the registry are untouched and the template loses
every tracked export specifier and single-binding declaration. -/
theorem perNamePass_of_no_occ (u tpl : JNode) (r : Registry)
    (h1 : occAddrs u "getServerSideProps" = [])
    (h2 : occAddrs u "getStaticProps" = [])
    (h3 : occAddrs u "getStaticPaths" = []) :
    perNamePass u tpl r =
      (u, removeMatching (isSingleDeclNamed "getStaticPaths")
            (removeMatching (isExportNamed "getStaticPaths")
              (removeMatching (isSingleDeclNamed "getStaticProps")
                (removeMatching (isExportNamed "getStaticProps")
                  (removeMatching (isSingleDeclNamed "getServerSideProps")
                    (removeMatching (isExportNamed "getServerSideProps") tpl))))), r) := by
  simp only [perNamePass, nameStep_of_no_occ _ _ _ h1, nameStep_of_no_occ _ _ _ h2,
    nameStep_of_no_occ _ _ _ h3]

/-- A declaration matched by the single-binding filter never introduces
several bindings in one statement. -/
theorem singleDecl_not_multi : ∀ (n : String) (d : JNode),
    isSingleDeclNamed n d = true → isMultiDecl d = false := by
  intro n d h
  cases d with
  | ident nm => exact Bool.noConfusion (show false = true from h)
  | node k fl cs =>
    cases k with
    | varDecl =>
      match cs, h with
      | [d0], _ => rfl
      | [], hh => exact Bool.noConfusion (show false = true from hh)
      | d0 :: d1 :: rest, hh => exact Bool.noConfusion (show false = true from hh)
    | importSpec => rfl
    | exportSpec => rfl
    | member => rfl
    | property => rfl
    | objPat => rfl
    | objExpr => rfl
    | declarator => rfl
    | other tag => rfl

/-! ## Claim C1 -/

/-- Claim C1 (corrected): the driver does *not* rename via the scope-aware
renamer of §4.3 — it assigns the alias to every matching identifier node
unconditionally.  The amended property: whenever every occurrence of the
tracked name in the user tree is in a plain context (its parent is none of
the four node kinds `maybeRenameNode` inspects), the per-name pass produces
exactly the tree a completed `renameIdentifiers` run produces, leaves the
template untouched, and records exactly the alias that run returns. -/
theorem c1_amended (u tpl : JNode) (n : String) (fuel : Nat) (t2 : JNode) (al : Option String)
    (hplain : ∀ a ∈ occAddrs u n, plainCtx u a = true)
    (hne : occAddrs u n ≠ [])
    (hrun : renameF fuel u n none = some (t2, al)) :
    (nameStep n (u, tpl)).1.1 = t2 ∧ (nameStep n (u, tpl)).1.2 = tpl ∧
    (nameStep n (u, tpl)).2 = al := by
  cases fuel with
  | zero => simp [renameF] at hrun
  | succ fuel =>
    simp only [renameF] at hrun
    have hlen : (occAddrs u n).length > 0 := List.length_pos.2 hne
    rw [if_pos hlen] at hrun
    cases hg : goF fuel u (occAddrs u n) (aliasArg u n none) with
    | none => rw [hg] at hrun; cases hrun
    | some t' =>
      rw [hg] at hrun
      rw [Option.some.injEq, Prod.mk.injEq] at hrun
      obtain ⟨rfl, rfl⟩ := hrun
      have hgoal := goF_plain hplain hg
      have halias : aliasArg u n none = findAvailibleAlias u n := rfl
      rw [nameStep_of_occ n u tpl hlen]
      refine ⟨?_, rfl, rfl⟩
      rw [hgoal, halias]

/-- Claim C1, counterexample: in `x.getServerSideProps` the renamer leaves
the member-access property occurrence untouched (and still returns the
alias), while the driver's own loop renames it. -/
theorem c1_counterexample :
    renameF 10 uC1 "getServerSideProps" none = some (uC1, some "_getServerSideProps") ∧
    (nameStep "getServerSideProps" (uC1, tplTrivial)).1.1
      = progOf [.node .member false [.ident "x", .ident "_getServerSideProps"]] ∧
    progOf [.node .member false [.ident "x", .ident "_getServerSideProps"]] ≠ uC1 := by
  decide

/-- Claim C1, witness: a module with one plain occurrence, where driver and
renamer agree. -/
theorem c1_witness :
    (∀ a ∈ occAddrs uC1plain "getServerSideProps", plainCtx uC1plain a = true) ∧
    occAddrs uC1plain "getServerSideProps" ≠ [] ∧
    renameF 10 uC1plain "getServerSideProps" none
      = some (progOf [.ident "_getServerSideProps"], some "_getServerSideProps") ∧
    ((nameStep "getServerSideProps" (uC1plain, tplTrivial)).1.1
        = progOf [.ident "_getServerSideProps"] ∧
     (nameStep "getServerSideProps" (uC1plain, tplTrivial)).1.2 = tplTrivial ∧
     (nameStep "getServerSideProps" (uC1plain, tplTrivial)).2
        = some "_getServerSideProps") :=
  ⟨by decide, by decide, by decide,
   c1_amended uC1plain tplTrivial "getServerSideProps" 10
     (progOf [.ident "_getServerSideProps"]) (some "_getServerSideProps")
     (by decide) (by decide) (by decide)⟩

/-! ## Claim C2 -/

/-- Claim C2 (corrected): the registry is module-level state that is *not*
re-initialized per invocation, so rewriting is not a function of the current
invocation's inputs alone.  The amended property: the loader's output is the
same from two registry states whenever, for each tracked function in splice
order, either the per-name pass leaves the same alias in both registries or
that function's placeholder no longer occurs in the rewritten template at
its splice step (which the §6 template contract guarantees after the
deletion branch). -/
theorem c2_amended (env : JSEnv) (r r' : Registry) (u tpl fp : String)
    (h1 : (wrapFunctionsM env r u tpl fp).reg.gssp
            = (wrapFunctionsM env r' u tpl fp).reg.gssp ∨
          hasSubstr (wrapFunctionsM env r u tpl fp).tplOut phGSSP = false)
    (h2 : (wrapFunctionsM env r u tpl fp).reg.gsprops
            = (wrapFunctionsM env r' u tpl fp).reg.gsprops ∨
          hasSubstr (splice1 env r u tpl fp) phGSPROPS = false)
    (h3 : (wrapFunctionsM env r u tpl fp).reg.gspaths
            = (wrapFunctionsM env r' u tpl fp).reg.gspaths ∨
          hasSubstr (splice2 env r u tpl fp) phGSPATHS = false) :
    (wrapDataFetchersLoader env r u tpl fp).out
      = (wrapDataFetchersLoader env r' u tpl fp).out := by
  have hu := (wrapFunctionsM_outs env r r' u tpl fp).1
  have ht := (wrapFunctionsM_outs env r r' u tpl fp).2.1
  have e1 : splice1 env r u tpl fp = splice1 env r' u tpl fp := by
    rcases h1 with hg | hs
    · unfold splice1
      rw [ht, hg]
    · have hs' : hasSubstr (wrapFunctionsM env r' u tpl fp).tplOut phGSSP = false := by
        rw [← ht]; exact hs
      unfold splice1
      rw [jsReplace_of_not_substr hs, jsReplace_of_not_substr hs', ht]
  have e2 : splice2 env r u tpl fp = splice2 env r' u tpl fp := by
    rcases h2 with hg | hs
    · unfold splice2
      rw [e1, hg]
    · have hs' : hasSubstr (splice1 env r' u tpl fp) phGSPROPS = false := by
        rw [← e1]; exact hs
      unfold splice2
      rw [jsReplace_of_not_substr hs, jsReplace_of_not_substr hs', e1]
  have e3 : spliceAll (wrapFunctionsM env r u tpl fp).reg (wrapFunctionsM env r u tpl fp).tplOut
      = spliceAll (wrapFunctionsM env r' u tpl fp).reg
          (wrapFunctionsM env r' u tpl fp).tplOut := by
    show jsReplace (splice2 env r u tpl fp) phGSPATHS
        (wrapFunctionsM env r u tpl fp).reg.gspaths
      = jsReplace (splice2 env r' u tpl fp) phGSPATHS
          (wrapFunctionsM env r' u tpl fp).reg.gspaths
    rcases h3 with hg | hs
    · rw [e2, hg]
    · have hs' : hasSubstr (splice2 env r' u tpl fp) phGSPATHS = false := by
        rw [← e2]; exact hs
      rw [jsReplace_of_not_substr hs, jsReplace_of_not_substr hs', e2]
  unfold wrapDataFetchersLoader
  by_cases hesm : env.isESM u = true
  · have hne : ¬((!env.isESM u) = true) := by simp [hesm]
    rw [if_neg hne, if_neg hne]
    by_cases hpre : trackedNames.all (fun n => !(hasSubstr u n)) = true
    · rw [if_pos hpre, if_pos hpre]
    · rw [if_neg hpre, if_neg hpre]
      show (wrapFunctionsM env r u tpl fp).userOut ++ "\n" ++
          spliceAll (wrapFunctionsM env r u tpl fp).reg (wrapFunctionsM env r u tpl fp).tplOut
        = (wrapFunctionsM env r' u tpl fp).userOut ++ "\n" ++
          spliceAll (wrapFunctionsM env r' u tpl fp).reg
            (wrapFunctionsM env r' u tpl fp).tplOut
      rw [hu, e3]
  · have hyes : (!env.isESM u) = true := by
      revert hesm
      cases env.isESM u <;> simp
    rw [if_pos hyes, if_pos hyes]

/-- Claim C2, counterexample: the same user text, template text and path
give different outputs depending on which invocation ran before — an
earlier module that set the `getServerSideProps` alias leaks it into a
later module's splice through a placeholder the deletion left behind. -/
theorem c2_counterexample :
    (wrapDataFetchersLoader envC2
        (wrapDataFetchersLoader envC2 Registry.initial
          "getServerSideProps_prev" "tpl" "a.js").reg
        "// getServerSideProps" "tpl" "a.js").out
      ≠ (wrapDataFetchersLoader envC2 Registry.initial
          "// getServerSideProps" "tpl" "a.js").out := by
  decide

/-- Claim C2, witness: two different registry states that nevertheless give
equal outputs, the placeholders being absent from the rewritten template. -/
theorem c2_witness :
    (wrapDataFetchersLoader envC2W ⟨"x", "y", "z"⟩ "getServerSideProps" "t" "f").out
      = (wrapDataFetchersLoader envC2W Registry.initial "getServerSideProps" "t" "f").out :=
  c2_amended envC2W ⟨"x", "y", "z"⟩ Registry.initial "getServerSideProps" "t" "f"
    (Or.inr (by decide)) (Or.inr (by decide)) (Or.inr (by decide))

/-! ## Claim C3 -/

/-- Claim C3 (corrected): on a parse failure the loader emits exactly one
warning and leaves the registry alone, but the returned string is *not*
byte-for-byte the input — it is the input followed by one newline (the
concatenation step runs with the blanked template unconditionally). -/
theorem c3_amended (env : JSEnv) (r : Registry) (u tpl fp : String)
    (hesm : env.isESM u = true)
    (hpre : trackedNames.all (fun n => !(hasSubstr u n)) = false)
    (hparse : env.parse u (isTSpath fp) = none) :
    (wrapDataFetchersLoader env r u tpl fp).out = u ++ "\n" ∧
    countWarn (wrapDataFetchersLoader env r u tpl fp).events = 1 ∧
    (wrapDataFetchersLoader env r u tpl fp).reg = r := by
  have hL : wrapDataFetchersLoader env r u tpl fp =
      ⟨(wrapFunctionsM env r u tpl fp).userOut ++ "\n" ++
         spliceAll (wrapFunctionsM env r u tpl fp).reg (wrapFunctionsM env r u tpl fp).tplOut,
       (wrapFunctionsM env r u tpl fp).reg,
       (wrapFunctionsM env r u tpl fp).events⟩ := by
    unfold wrapDataFetchersLoader
    have hne1 : ¬((!env.isESM u) = true) := by simp [hesm]
    have hne2 : ¬(trackedNames.all (fun n => !(hasSubstr u n)) = true) := by simp [hpre]
    rw [if_neg hne1, if_neg hne2]
  rw [hL, wrapFunctionsM_eq_fail hparse]
  refine ⟨?_, ?_, rfl⟩
  · show u ++ "\n" ++ spliceAll r "" = u ++ "\n"
    have hsp : spliceAll r "" = "" := by
      unfold spliceAll
      rw [jsReplace_empty (by decide), jsReplace_empty (by decide), jsReplace_empty (by decide)]
    rw [hsp]
    exact str_append_empty _
  · show countWarn [LEvent.parsed u (isTSpath fp), LEvent.warned] = 1
    rfl

/-- Claim C3, counterexample: with a failing parser the returned string
differs from the input (a newline was appended), though exactly one warning
is emitted. -/
theorem c3_counterexample :
    (wrapDataFetchersLoader envC3 Registry.initial
        "export getServerSideProps" "tpl" "p.js").out
      ≠ "export getServerSideProps" ∧
    countWarn (wrapDataFetchersLoader envC3 Registry.initial
        "export getServerSideProps" "tpl" "p.js").events = 1 := by
  decide

/-- Claim C3, witness for the amended fallback shape. -/
theorem c3_witness :
    envC3.isESM "export getStaticPaths" = true ∧
    trackedNames.all (fun n => !(hasSubstr "export getStaticPaths" n)) = false ∧
    envC3.parse "export getStaticPaths" (isTSpath "p.js") = none ∧
    ((wrapDataFetchersLoader envC3 Registry.initial
        "export getStaticPaths" "tplX" "p.js").out = "export getStaticPaths" ++ "\n" ∧
     countWarn (wrapDataFetchersLoader envC3 Registry.initial
        "export getStaticPaths" "tplX" "p.js").events = 1 ∧
     (wrapDataFetchersLoader envC3 Registry.initial
        "export getStaticPaths" "tplX" "p.js").reg = Registry.initial) :=
  ⟨rfl, by decide, rfl,
   c3_amended envC3 Registry.initial "export getStaticPaths" "tplX" "p.js"
     rfl (by decide) rfl⟩

/-! ## Claim C4 -/

/-- Claim C4 (confirmed): for every occurrence processed by
`maybeRenameNode`, the do-not-rename contexts (imported side of an import
specifier, property key inside an object pattern or literal, property side
of a member access — exactly `exemptAt`) leave the tree untouched, and in
every other context the occurrence's name becomes the alias. -/
theorem c4_partition (fuel : Nat) (t : JNode) (a : Addr) (al : String)
    (t' : JNode) (x : String)
    (h : maybeRenameF fuel t a al = some t')
    (hx : getAt t a = some (.ident x)) :
    (exemptAt t a = true → t' = t) ∧
    (exemptAt t a = false → getAt t' a = some (.ident al)) :=
  ⟨fun hex => maybeRenameF_exempt h hex,
   fun hex => maybeRenameF_renames h hex hx⟩

/-- Claim C4, witness: the imported side of `import { getStaticProps }` is
exempt and returned untouched. -/
theorem c4_witness :
    maybeRenameF 3 tC4 [0, 0] "alias" = some tC4 ∧
    getAt tC4 [0, 0] = some (.ident "getStaticProps") ∧
    ((exemptAt tC4 [0, 0] = true → tC4 = tC4) ∧
     (exemptAt tC4 [0, 0] = false → getAt tC4 [0, 0] = some (.ident "alias"))) :=
  ⟨by decide, by decide,
   c4_partition 3 tC4 [0, 0] "alias" tC4 "getStaticProps" (by decide) (by decide)⟩

/-! ## Claim C5 -/

/-- Claim C5 (corrected): after `renameIdentifiers(tree, N, A)` on a tree
holding `export { L as N }`, both sides of the specifier end up named `A`;
but occurrences of `L` elsewhere are renamed only in rename-eligible
positions — an occurrence of `L` in a do-not-rename position (for instance
the property side of a member access) keeps its name, contrary to the
claim's "every occurrence of L". -/
theorem c5_amended (fuel : Nat) (t : JNode) (p : Addr) (pfl : Bool) (L N A : String)
    (t' : JNode) (al : Option String)
    (hspec : getAt t p = some (.node .exportSpec pfl [.ident L, .ident N]))
    (hAN : A ≠ N) (hAL : A ≠ L) (hA : A ≠ "")
    (hrun : renameF fuel t N (some A) = some (t', al)) :
    identNameAt t' (p ++ [1]) = some A ∧ identNameAt t' (p ++ [0]) = some A ∧
    ∀ a, exemptAt t a = true → identNameAt t' a = identNameAt t a :=
  renameF_export_roundtrip hspec hAN hAL hA hrun

/-- Claim C5, counterexample: renaming `N` to `A` on
`export { L as N }; x.L` renames both specifier sides but leaves the
member-access occurrence of `L` unrenamed. -/
theorem c5_counterexample :
    renameF 10 tC5 "N" (some "A") = some (tC5res, some "A") ∧
    occAddrs tC5res "L" = [[1, 1]] ∧
    identNameAt tC5res [1, 1] = some "L" := by
  decide

/-- Claim C5, witness for the amended export round-trip. -/
theorem c5_witness :
    getAt tC5 [0, 0] = some (.node .exportSpec false [.ident "L", .ident "N"]) ∧
    ("A" : String) ≠ "N" ∧ ("A" : String) ≠ "L" ∧ ("A" : String) ≠ "" ∧
    renameF 10 tC5 "N" (some "A") = some (tC5res, some "A") ∧
    (identNameAt tC5res ([0, 0] ++ [1]) = some "A" ∧
     identNameAt tC5res ([0, 0] ++ [0]) = some "A" ∧
     ∀ a, exemptAt tC5 a = true → identNameAt tC5res a = identNameAt tC5 a) :=
  ⟨by decide, by decide, by decide, by decide, by decide,
   c5_amended 10 tC5 [0, 0] false "L" "N" "A" tC5res (some "A")
     (by decide) (by decide) (by decide) (by decide) (by decide)⟩

/-! ## Claim C6 -/

/-- Claim C6 (confirmed): `findAvailibleAlias` returns the original name
prefixed by one or more underscores, with no occurrence in the tree — in
particular the alias differs from every identifier name already present. -/
theorem c6_alias_fresh (t : JNode) (n : String) :
    (∃ k, 1 ≤ k ∧ findAvailibleAlias t n = usRep k ++ n) ∧
    occAddrs t (findAvailibleAlias t n) = [] ∧
    ∀ (a : Addr) (x : String), getAt t a = some (.ident x) → x ≠ findAvailibleAlias t n := by
  obtain ⟨k, hk, heq, hocc, -⟩ := findAvailibleAlias_spec t n
  refine ⟨⟨k, hk, heq⟩, hocc, ?_⟩
  intro a x hx heqx
  subst heqx
  exact (occAddrs_nil_iff.1 hocc) a hx

/-! ## Claim C7 -/

/-- Claim C7 (confirmed): the allocator's loop stops after `k` candidates
with `k` at most one more than the number of distinct underscore-prefixed
variants of the name present in the tree; every earlier candidate collides,
and each retry candidate is strictly longer than the previous one. -/
theorem c7_allocator_terminates (t : JNode) (n : String) :
    ∃ k, 1 ≤ k ∧ k ≤ variantCount t n + 1 ∧
      findAvailibleAlias t n = usRep k ++ n ∧
      (∀ j, 1 ≤ j → j < k → occAddrs t (usRep j ++ n) ≠ []) ∧
      (∀ j, (usRep j ++ n).length < (usRep (j + 1) ++ n).length) := by
  obtain ⟨k, hk1, heq, hocc, hcoll⟩ := findAvailibleAlias_spec t n
  refine ⟨k, hk1, ?_, heq, hcoll, ?_⟩
  · have hsub : Finset.Icc 1 (k - 1) ⊆ (Finset.range (maxNameLen t + 2)).filter
        (fun j => 1 ≤ j ∧ occAddrs t (usRep j ++ n) ≠ []) := by
      intro j hj
      rw [Finset.mem_Icc] at hj
      have hjk : j < k := by omega
      have hcol := hcoll j hj.1 hjk
      have hlen := occAddrs_len t _ hcol
      rw [String.length_append, usRep_length] at hlen
      rw [Finset.mem_filter, Finset.mem_range]
      exact ⟨by omega, hj.1, hcol⟩
    have hcard := Finset.card_le_card hsub
    rw [Nat.card_Icc] at hcard
    unfold variantCount
    omega
  · intro j
    rw [String.length_append, String.length_append, usRep_length, usRep_length]
    omega

/-! ## Claim C8 -/

/-- Claim C8 (confirmed): when none of the three tracked names occurs as a
substring of the raw user text, the loader returns the text unchanged, the
registry unchanged, and performs no observable action — in particular no
parse is attempted (the event list is empty). -/
theorem c8_prefilter_bypass (env : JSEnv) (r : Registry) (u tpl fp : String)
    (h : ∀ n ∈ trackedNames, hasSubstr u n = false) :
    wrapDataFetchersLoader env r u tpl fp = ⟨u, r, []⟩ := by
  unfold wrapDataFetchersLoader
  by_cases hesm : env.isESM u = true
  · have hne : ¬((!env.isESM u) = true) := by simp [hesm]
    rw [if_neg hne]
    have hall : trackedNames.all (fun n => !(hasSubstr u n)) = true := by
      rw [List.all_eq_true]
      intro n hn
      simp [h n hn]
    rw [if_pos hall]
  · have hyes : (!env.isESM u) = true := by
      revert hesm
      cases env.isESM u <;> simp
    rw [if_pos hyes]

/-- Claim C8, witness: a module with no tracked name passes through. -/
theorem c8_witness :
    (∀ n ∈ trackedNames, hasSubstr "const x = 1" n = false) ∧
    wrapDataFetchersLoader envC8 Registry.initial "const x = 1" "tpl" "p.js"
      = ⟨"const x = 1", Registry.initial, []⟩ :=
  ⟨by decide,
   c8_prefilter_bypass envC8 Registry.initial "const x = 1" "tpl" "p.js" (by decide)⟩

/-! ## Claim C9 -/

/-- Claim C9 (confirmed): for a user tree holding no tracked identifier,
the per-name pass, run on the template of the §6 contract, deletes every
placeholder, every tracked-name export specifier and every tracked-name
single-binding declaration, while a declaration introducing several
bindings in one statement is never matched and survives unchanged. -/
theorem c9_deletion_complete (u : JNode) (r : Registry)
    (h : ∀ n ∈ trackedNames, occAddrs u n = []) :
    occAddrs (perNamePass u templateTree r).2.1 phGSSP = [] ∧
    occAddrs (perNamePass u templateTree r).2.1 phGSPROPS = [] ∧
    occAddrs (perNamePass u templateTree r).2.1 phGSPATHS = [] ∧
    (∀ n ∈ trackedNames,
      anyNode (isExportNamed n) (perNamePass u templateTree r).2.1 = false) ∧
    (∀ n ∈ trackedNames,
      anyNode (isSingleDeclNamed n) (perNamePass u templateTree r).2.1 = false) ∧
    countNodes isMultiDecl (perNamePass u templateTree r).2.1
      = countNodes isMultiDecl templateTree ∧
    (∀ (n : String) (d : JNode), isSingleDeclNamed n d = true → isMultiDecl d = false) := by
  have h1 := h "getServerSideProps" (by decide)
  have h2 := h "getStaticProps" (by decide)
  have h3 := h "getStaticPaths" (by decide)
  have hp := perNamePass_of_no_occ u templateTree r h1 h2 h3
  have hT : (perNamePass u templateTree r).2.1
      = removeMatching (isSingleDeclNamed "getStaticPaths")
          (removeMatching (isExportNamed "getStaticPaths")
            (removeMatching (isSingleDeclNamed "getStaticProps")
              (removeMatching (isExportNamed "getStaticProps")
                (removeMatching (isSingleDeclNamed "getServerSideProps")
                  (removeMatching (isExportNamed "getServerSideProps") templateTree))))) := by
    rw [hp]
  refine ⟨?_, ?_, ?_, ?_, ?_, ?_, singleDecl_not_multi⟩ <;> rw [hT] <;> decide

/-- Claim C9, witness: a user module containing none of the tracked names. -/
theorem c9_witness :
    (∀ n ∈ trackedNames, occAddrs uC9 n = []) ∧
    (occAddrs (perNamePass uC9 templateTree Registry.initial).2.1 phGSSP = [] ∧
     occAddrs (perNamePass uC9 templateTree Registry.initial).2.1 phGSPROPS = [] ∧
     occAddrs (perNamePass uC9 templateTree Registry.initial).2.1 phGSPATHS = [] ∧
     (∀ n ∈ trackedNames,
       anyNode (isExportNamed n) (perNamePass uC9 templateTree Registry.initial).2.1 = false) ∧
     (∀ n ∈ trackedNames,
       anyNode (isSingleDeclNamed n)
         (perNamePass uC9 templateTree Registry.initial).2.1 = false) ∧
     countNodes isMultiDecl (perNamePass uC9 templateTree Registry.initial).2.1
       = countNodes isMultiDecl templateTree ∧
     (∀ (n : String) (d : JNode), isSingleDeclNamed n d = true → isMultiDecl d = false)) :=
  ⟨by decide, c9_deletion_complete uC9 Registry.initial (by decide)⟩

/-! ## Claim C10 -/

/-- Claim C10 (confirmed): the member-expression branch of
`maybeRenameNode` never consults the `computed` flag: an identifier in
property position of a member access is left unrenamed whatever that flag
is — including `obj[origName]`, where it is a live reference. -/
theorem c10_computed_member (fuel : Nat) (t : JNode) (p : Addr) (cmp : Bool)
    (cs : List JNode) (x al : String)
    (hm : getAt t p = some (.node .member cmp cs))
    (hx : getAt t (p ++ [1]) = some (.ident x)) :
    maybeRenameF (fuel + 1) t (p ++ [1]) al = some t := by
  have han : ancNodeAt t (p ++ [1]) = some (.node .member cmp cs) := by
    rw [ancNodeAt_concat, hm]
  simp only [maybeRenameF, han]
  rw [concat_getLastD]
  rw [if_pos rfl]

/-- Claim C10, witness: the *computed* access `obj[getStaticPaths]`; the
occurrence is returned untouched. -/
theorem c10_witness :
    getAt tC10 [0] = some (.node .member true [.ident "obj", .ident "getStaticPaths"]) ∧
    getAt tC10 ([0] ++ [1]) = some (.ident "getStaticPaths") ∧
    maybeRenameF (3 + 1) tC10 ([0] ++ [1]) "alias" = some tC10 :=
  ⟨by decide, by decide,
   c10_computed_member 3 tC10 [0] true [.ident "obj", .ident "getStaticPaths"]
     "getStaticPaths" "alias" (by decide) (by decide)⟩
